import Mathlib

/-!
Shallow embedding of `openmdao/devtools/problem_viewer/problem_viewer.py`
(the N2-viewer data extraction: `_get_var_dict`, `_get_tree_dict`,
`_get_declare_partials`, `_get_viewer_data`).

Python dictionaries are modelled as association lists (insertion ordered,
keys unique in practice), raised exceptions as `Except String`, and mutation
of the model object (`root_group._conn_global_abs_in2out = ...`) by returning
the updated data source alongside the result.  The multi-process
`comm.allgather` reconciliation branch (`comm.size > 1`) is outside a
sequential shallow embedding; we model the single-process case, in which the
source keeps the locally built children list unchanged.  The third-party
`networkx` calls (`strongly_connected_components`, `DiGraph.subgraph`,
`edges`) are modelled from their documented semantics over an explicit edge
list.  The collaborator methods that live outside this file
(`compute_sys_graph`, `get_design_vars`, `get_responses`, `_var_abs2prom`,
`CaseReader(...).problem_metadata`) are carried as read-only data fields of
the model object, as described by the external-interface section of the spec.
-/

/-- Direction of a variable: the `typ` argument (input or output). -/
inductive Direction where
  | input
  | output
deriving DecidableEq

/-- The most specific component class of a leaf, resolved from the
`isinstance` chain in `_get_tree_dict` (lines 70-81). -/
inductive CompType where
  | implicit
  | exec
  | metamodel
  | indep
  | explicit
  | unknown
deriving DecidableEq

/-- Leaf component data: the attributes of a non-`Group` system read by the
viewer.  Variable metadata (the type name of the value entry) is carried directly
as the `dtype` string. -/
structure Comp where
  name : String
  pathname : String
  ctype : CompType
  var_abs_names_input : List String
  var_abs_names_output : List String
  var_discrete_input : List (String × String)
  var_discrete_output : List (String × String)
  var_abs2meta : List (String × String)
  var_abs2prom_input : List (String × String)
  var_abs2prom_output : List (String × String)
  solve_linear_override : Bool
  solve_nonlinear_override : Bool
  linear_solver : Option String
  nonlinear_solver : Option String
  subjacs : List (String × String)
deriving DecidableEq

/-- A system: a leaf component or a `Group` with ordered children
(`_subsystems_myproc`).  `is_par` records `isinstance(system, ParallelGroup)`. -/
inductive System where
  | comp (c : Comp)
  | group (name pathname : String) (is_par : Bool)
      (linear_solver nonlinear_solver : Option String)
      (children : List System)

/-- `isinstance(system, Group)`. -/
def System.isGroup : System → Bool
  | .comp _ => false
  | .group _ _ _ _ _ _ => true

/-- The `pathname` attribute of a system. -/
def System.pathname : System → String
  | .comp c => c.pathname
  | .group _ p _ _ _ _ => p

/-- One entry of the `children` list of a leaf, as built by `_get_var_dict`. -/
structure VarDict where
  name : String
  vtype : String
  implicit : Option Bool
  dtype : String
deriving DecidableEq

def Comp.varAbsNames (c : Comp) : Direction → List String
  | .input => c.var_abs_names_input
  | .output => c.var_abs_names_output

def Comp.varDiscrete (c : Comp) : Direction → List (String × String)
  | .input => c.var_discrete_input
  | .output => c.var_discrete_output

def Comp.varAbs2prom (c : Comp) : Direction → List (String × String)
  | .input => c.var_abs2prom_input
  | .output => c.var_abs2prom_output

/-- The fields written at lines 49-56 of the source: param for inputs;
unknown plus the `implicit` flag for outputs. -/
def mkVarDict (c : Comp) (typ : Direction) (name dtype : String) : VarDict :=
  match typ with
  | .input => { name := name, vtype := "param", implicit := none, dtype := dtype }
  | .output =>
      { name := name, vtype := "unknown",
        implicit := some (c.ctype = CompType.implicit), dtype := dtype }

/-- `_get_var_dict(system, typ, name)`: discrete variables are looked up by
name in `_var_discrete[typ]`; otherwise metadata comes from `_var_abs2meta`
and the name is replaced by its promoted name; a missing key raises. -/
def _get_var_dict (c : Comp) (typ : Direction) (name : String) :
    Except String VarDict :=
  match List.lookup name (c.varDiscrete typ) with
  | some meta => .ok (mkVarDict c typ name meta)
  | none =>
      match List.lookup name c.var_abs2meta with
      | none => .error "KeyError"
      | some meta =>
          match List.lookup name (c.varAbs2prom typ) with
          | none => .error "KeyError"
          | some prom => .ok (mkVarDict c typ prom meta)

/-- The inner `children.append` loops of the leaf branch, one direction at a
time, threading the accumulated list. -/
def appendVars (c : Comp) (typ : Direction) :
    List String → List VarDict → Except String (List VarDict)
  | [], acc => .ok acc
  | n :: rest, acc =>
      match _get_var_dict c typ n with
      | .error e => .error e
      | .ok v => appendVars c typ rest (acc ++ [v])

/-- One iteration of the loop over the two directions: continuous variables
(`_var_abs_names[typ]`) first, then discrete ones (`_var_discrete[typ]`). -/
def dirChildren (c : Comp) (typ : Direction) (acc : List VarDict) :
    Except String (List VarDict) :=
  match appendVars c typ (c.varAbsNames typ) acc with
  | .error e => .error e
  | .ok acc2 => appendVars c typ ((c.varDiscrete typ).map Prod.fst) acc2

/-- The whole `children` list of a leaf component (lines 86-92). -/
def compChildren (c : Comp) : Except String (List VarDict) :=
  match dirChildren c Direction.input [] with
  | .error e => .error e
  | .ok acc => dirChildren c Direction.output acc

/-- The nested serializable tree produced by `_get_tree_dict`; children of a
leaf are variable dictionaries, children of a group are subtrees. -/
inductive TreeDict where
  | mk (name ttype subsystem_type : String) (component_type : Option String)
      (is_par : Bool) (linear_solver nonlinear_solver : String)
      (children : List (VarDict ⊕ TreeDict))

def TreeDict.children : TreeDict → List (VarDict ⊕ TreeDict)
  | .mk _ _ _ _ _ _ _ ch => ch

def TreeDict.name : TreeDict → String
  | .mk n _ _ _ _ _ _ _ => n

/-- `component_type` tag of a leaf (lines 70-81; `None` for the fallthrough). -/
def CompType.label : CompType → Option String
  | .implicit => some "implicit"
  | .exec => some "exec"
  | .metamodel => some "metamodel"
  | .indep => some "indep"
  | .explicit => some "explicit"
  | .unknown => none

/-- Python `dict` assignment `m[k] = v`: update in place when the key exists,
append otherwise. -/
def dictInsert (m : List (String × Nat)) (k : String) (v : Nat) :
    List (String × Nat) :=
  if m.any (fun p => p.1 = k) then
    m.map (fun p => if p.1 = k then (p.1, v) else p)
  else m ++ [(k, v)]

/-- Solver label of a leaf (lines 113-122): implicit components report the
overridden capability, others the label of their configured solver. -/
def compLinSolver (c : Comp) : String :=
  if c.ctype = CompType.implicit then
    (if c.solve_linear_override then "solve_linear" else "")
  else
    match c.linear_solver with
    | some s => s
    | none => ""

/-- Nonlinear solver label of a leaf (lines 124-133). -/
def compNonlinSolver (c : Comp) : String :=
  if c.ctype = CompType.implicit then
    (if c.solve_nonlinear_override then "solve_nonlinear" else "")
  else
    match c.nonlinear_solver with
    | some s => s
    | none => ""

def solverLabel : Option String → String
  | some s => s
  | none => ""

mutual

/-- `_get_tree_dict(system, component_execution_orders,
component_execution_index, is_parallel)`: state `(orders, idx)` is threaded
explicitly in place of the mutable dict and the one-element index list.
The final `name`/`type` root relabeling (lines 137-139) is applied before
returning. -/
def _get_tree_dict : System → List (String × Nat) → Nat → Bool →
    Except String (TreeDict × List (String × Nat) × Nat)
  | .comp c, orders, idx, is_parallel =>
      let orders2 := dictInsert orders c.pathname idx
      match compChildren c with
      | .error e => .error e
      | .ok vars =>
          let nm := if c.name = "" then "root" else c.name
          let tp := if c.name = "" then "root" else "subsystem"
          .ok (TreeDict.mk nm tp "component" c.ctype.label is_parallel
                (compLinSolver c) (compNonlinSolver c)
                (vars.map Sum.inl), orders2, idx + 1)
  | .group nm pth ispar lin nonlin children, orders, idx, is_parallel =>
      let is_parallel2 := is_parallel || ispar
      match _get_tree_children children orders idx is_parallel2 with
      | .error e => .error e
      | .ok (subs, orders2, idx2) =>
          let nm2 := if nm = "" then "root" else nm
          let tp := if nm = "" then "root" else "subsystem"
          .ok (TreeDict.mk nm2 tp "group" none is_parallel2
                (solverLabel lin) (solverLabel nonlin)
                (subs.map Sum.inr), orders2, idx2)

/-- The list comprehension over `system._subsystems_myproc` (line 100),
threading the shared execution-order state left to right. -/
def _get_tree_children : List System → List (String × Nat) → Nat → Bool →
    Except String (List TreeDict × List (String × Nat) × Nat)
  | [], orders, idx, _ => .ok ([], orders, idx)
  | s :: rest, orders, idx, is_parallel =>
      match _get_tree_dict s orders idx is_parallel with
      | .error e => .error e
      | .ok (t, orders2, idx2) =>
          match _get_tree_children rest orders2 idx2 is_parallel with
          | .error e => .error e
          | .ok (ts, orders3, idx3) => .ok (t :: ts, orders3, idx3)

end

mutual

/-- Leaf-component pathnames of a system in depth-first traversal order. -/
def leavesOf : System → List String
  | .comp c => [c.pathname]
  | .group _ _ _ _ _ children => leavesOfList children

def leavesOfList : List System → List String
  | [] => []
  | s :: rest => leavesOf s ++ leavesOfList rest

end

/-- Characters before the last dot, or `none` if the list has no dot. -/
def ownerAux : List Char → Option (List Char)
  | [] => none
  | ch :: rest =>
      match ownerAux rest with
      | some p => some (ch :: p)
      | none => if ch = '.' then some [] else none

/-- The owning subsystem of an absolute variable path (rsplit on the last
dot; the whole string when it has no dot). -/
def ownerPath (s : String) : String :=
  match ownerAux s.data with
  | some p => String.mk p
  | none => s

/-- Registration of a pathname into `sys_pathnames_list` (lines 269-272):
append only on first encounter. -/
def registerPath (spl : List String) (p : String) : List String :=
  if p ∈ spl then spl else spl ++ [p]

/-- Index of the first occurrence of a string in the pathname list, the
value stored in `sys_pathnames_dict`. -/
def idxOf : List String → String → Nat
  | [], _ => 0
  | a :: rest, s => if a = s then 0 else idxOf rest s + 1

/-- Stable insertion into a `le`-sorted list, placing the new element before
the first existing element it compares `le` to. -/
def insertLe {α : Type} (le : α → α → Bool) (a : α) : List α → List α
  | [] => [a]
  | b :: bs => if le a b then a :: b :: bs else b :: insertLe le a bs

/-- Stable sort by `le`, as the Python sorted builtin and list.sort. -/
def sortLe {α : Type} (le : α → α → Bool) (l : List α) : List α :=
  l.foldr (insertLe le) []

/-- Strict lexicographic comparison of code-point lists: the Python
less-than on strings. -/
def charListLt : List Char → List Char → Bool
  | [], [] => false
  | [], _ :: _ => true
  | _ :: _, [] => false
  | a :: as, b :: bs => decide (a < b) || (a = b && charListLt as bs)

/-- Lexicographic comparison of code-point lists: the Python
less-or-equal on strings. -/
def charListLe : List Char → List Char → Bool
  | [], _ => true
  | _ :: _, [] => false
  | a :: as, b :: bs => decide (a < b) || (a = b && charListLe as bs)

/-- The Python less-than on strings (code-point lexicographic). -/
def strLt (a b : String) : Bool := charListLt a.data b.data

/-- The Python less-or-equal on strings (code-point lexicographic). -/
def strLe (a b : String) : Bool := charListLe a.data b.data

/-- Python tuple comparison on `(in_abs, out_abs)` dict items: the keys of a
dict are unique, so only the first components are ever compared. -/
def connKeyLe (p q : String × Option String) : Bool :=
  strLe p.1 q.1

/-- Python list comparison on `[src, tgt]` index pairs. -/
def pairLe (p q : Nat × Nat) : Bool :=
  decide (p.1 < q.1 ∨ (p.1 = q.1 ∧ p.2 ≤ q.2))

/-- Nodes of the component graph, in first-appearance-from-the-right order
(order among SCC sets is irrelevant downstream). -/
def graphNodes (G : List (String × String)) : List String :=
  (G.map Prod.fst ++ G.map Prod.snd).dedup

/-- Bounded-depth reachability in the directed edge list. -/
def reachF (G : List (String × String)) : Nat → String → String → Bool
  | 0, a, b => a = b
  | n + 1, a, b =>
      a = b || (G.filter (fun e => e.1 = a)).any (fun e => reachF G n e.2 b)

/-- Reachability; fuel `|nodes|` suffices since a simple path repeats no
node. -/
def reachable (G : List (String × String)) (a b : String) : Bool :=
  reachF G (graphNodes G).length a b

/-- Modelled from the documented semantics of the third-party
`networkx.strongly_connected_components`: the SCC of `u` is the set of nodes
mutually reachable with `u`. -/
def sccOf (G : List (String × String)) (u : String) : List String :=
  (graphNodes G).filter (fun v => reachable G u v && reachable G v u)

/-- Modelled from the documented semantics of the third-party
`networkx.strongly_connected_components`: the distinct SCC sets of the
component graph (isolated nodes carried by the real graph object only ever
form singletons, which line 238 of the source discards). -/
def sccRaw (G : List (String × String)) : List (List String) :=
  ((graphNodes G).map (sccOf G)).dedup

/-- `scc_list = [s for s in scc if len(s) > 1]` (line 238). -/
def sccListOfGraph (G : List (String × String)) : List (List String) :=
  (sccRaw G).filter (fun s => s.length > 1)

/-- The node filter of line 262: every `n` of the SCC set whose execution
order lies in the closed window; each membership test reads
`comp_exec_orders[n]`, raising on a missing key. -/
def filterNodes (ords : List (String × Nat)) (lo hi : Nat) :
    List String → Except String (List String)
  | [] => .ok []
  | n :: rest =>
      match List.lookup n ords with
      | none => .error "KeyError"
      | some o =>
          match filterNodes ords lo hi rest with
          | .error e => .error e
          | .ok ns => .ok (if lo ≤ o ∧ o ≤ hi then n :: ns else ns)

/-- The loop over `subg.edges()` (lines 263-278): every subgraph edge other
than the direct source-to-target edge registers its endpoints and is
recorded as an index pair. -/
def edgeLoop (stt : String) : List (String × String) → List (Nat × Nat) →
    List String → List (Nat × Nat) × List String
  | [], edges, spl => (edges, spl)
  | (a, b) :: rest, edges, spl =>
      if a ++ " " ++ b ≠ stt then
        let spl1 := registerPath spl a
        let spl2 := registerPath spl1 b
        edgeLoop stt rest (edges ++ [(idxOf spl2 a, idxOf spl2 b)]) spl2
      else edgeLoop stt rest edges spl

/-- The `for li in scc_list` loop (lines 251-278) for one connection:
`count` trips the ValueError of line 255 on a second matching
SCC set; a matching set contributes the edges of the induced subgraph over
its execution-order window. -/
def sccScan (ss ts stt : String) (ords : List (String × Nat))
    (G : List (String × String)) :
    List (List String) → Nat → List (Nat × Nat) → List String →
    Except String (List (Nat × Nat) × List String)
  | [], _, edges, spl => .ok (edges, spl)
  | li :: rest, count, edges, spl =>
      if ss ∈ li ∧ ts ∈ li then
        if count + 1 > 1 then .error "Count greater than 1"
        else
          match List.lookup ts ords with
          | none => .error "KeyError"
          | some exe_tgt =>
              match List.lookup ss ords with
              | none => .error "KeyError"
              | some exe_src =>
                  let lo := min exe_tgt exe_src
                  let hi := max exe_tgt exe_src
                  match filterNodes ords lo hi li with
                  | .error e => .error e
                  | .ok ns =>
                      let subgEdges :=
                        G.filter (fun e => decide (e.1 ∈ ns) && decide (e.2 ∈ ns))
                      let res := edgeLoop stt subgEdges edges spl
                      sccScan ss ts stt ords G rest (count + 1) res.1 res.2
      else sccScan ss ts stt ords G rest count edges spl

/-- One entry of `connections_list`; `cycle_arrows` is `none` when the key
is absent from the emitted dict. -/
structure Connection where
  src : String
  tgt : String
  cycle_arrows : Option (List (Nat × Nat))
deriving DecidableEq

/-- The `for in_abs, out_abs in iteritems(sorted_abs_input2src)` loop
(lines 240-285): undefined sources are skipped; every defined pair emits
exactly one entry, with the sorted `cycle_arrows` field present exactly when
the SCC scan recorded at least one edge. -/
def connLoop (scc_list : List (List String)) (ords : List (String × Nat))
    (G : List (String × String)) :
    List (String × Option String) → List String → List Connection →
    Except String (List Connection × List String)
  | [], spl, conns => .ok (conns, spl)
  | (_, none) :: rest, spl, conns => connLoop scc_list ords G rest spl conns
  | (in_abs, some out_abs) :: rest, spl, conns =>
      let ss := ownerPath out_abs
      let ts := ownerPath in_abs
      let stt := ss ++ " " ++ ts
      match sccScan ss ts stt ords G scc_list 0 [] spl with
      | .error e => .error e
      | .ok (edges_list, spl2) =>
          let entry : Connection :=
            if edges_list.isEmpty then
              { src := out_abs, tgt := in_abs, cycle_arrows := none }
            else
              { src := out_abs, tgt := in_abs,
                cycle_arrows := some (sortLe pairLe edges_list) }
          connLoop scc_list ords G rest spl2 (conns ++ [entry])

mutual

/-- `_get_declare_partials`: depth-first collection of `"of > wrt"` strings
from the `_subjacs_info` keys of each component. -/
def _get_declare_partials : System → List String
  | .comp c => c.subjacs.map (fun k => k.1 ++ " > " ++ k.2)
  | .group _ _ _ _ _ children => declarePartialsList children

/-- Recursion over the `_subsystems_myproc` of a group for
`_get_declare_partials`. -/
def declarePartialsList : List System → List String
  | [] => []
  | s :: rest => _get_declare_partials s ++ declarePartialsList rest

end

/-- The root group object with the attributes `_get_viewer_data` reads
besides the hierarchy itself.  `sys_graph_edges` carries the edge list of
the component-level dependency graph returned by the collaborator method
`compute_sys_graph(comps_only=True)`; `design_vars` / `responses` /
`abs2prom` likewise carry the collaborator results read at lines 289-294. -/
structure RootGroup where
  sys : System
  conn_global_abs_in2out : List (String × Option String)
  sys_graph_edges : List (String × String)
  var_abs2prom_in : List (String × String)
  var_abs2prom_out : List (String × String)
  design_vars : List String
  responses : List String

/-- The driver attributes read at lines 197-203. -/
structure DriverData where
  className : String
  isDOE : Bool
  options : List (String × String)
  has_opt_settings : Bool
  opt_settings : List (String × String)

/-- A `Problem`: a model plus a driver. -/
structure ProblemData where
  model : RootGroup
  driver : DriverData

/-- The three accepted kinds of `data_source`; a recorded case file carries
the pre-computed `problem_metadata` exposed by the collaborator
`CaseReader`. -/
inductive DataSource where
  | problem (p : ProblemData)
  | group (g : RootGroup)
  | filename (locator : String) (problem_metadata : List (String × String))

/-- The full `data_dict` assembled by `_get_viewer_data` on the success
path. -/
structure DataDict where
  tree : TreeDict
  sys_pathnames_list : List String
  connections_list : List Connection
  abs2prom_in : List (String × String)
  abs2prom_out : List (String × String)
  driver_name : Option String
  driver_type : Option String
  driver_options : Option (List (String × String))
  driver_opt_settings : Option (List (String × String))
  design_vars : List String
  responses : List String
  declare_partials_list : List String

/-- The possible shapes of the `_get_viewer_data` return value: the bare `{}`
of the soft-degrade paths, the recorded-file metadata passthrough, or the
fully assembled dictionary. -/
inductive ViewerData where
  | empty
  | metadata (m : List (String × String))
  | full (d : DataDict)

def ViewerData.isFull : ViewerData → Bool
  | .full _ => true
  | _ => false

/-- Lines 222-296: tree construction, the sort-and-reassign of
`_conn_global_abs_in2out`, SCC computation, the connection loop, and the
final dictionary assembly.  Returns the data dict together with the updated
root group (reflecting the line-234 reassignment). -/
def buildFull (rg : RootGroup) (driver_name driver_type : Option String)
    (driver_options : Option (List (String × String)))
    (driver_opt_settings : Option (List (String × String))) :
    Except String (DataDict × RootGroup) :=
  match _get_tree_dict rg.sys [] 0 false with
  | .error e => .error e
  | .ok (tree, comp_exec_orders, _) =>
      let sorted_abs_input2src := sortLe connKeyLe rg.conn_global_abs_in2out
      let rg2 := { rg with conn_global_abs_in2out := sorted_abs_input2src }
      let G := rg.sys_graph_edges
      let scc_list := sccListOfGraph G
      match connLoop scc_list comp_exec_orders G sorted_abs_input2src [] [] with
      | .error e => .error e
      | .ok (connections_list, sys_pathnames_list) =>
          .ok ({ tree := tree,
                 sys_pathnames_list := sys_pathnames_list,
                 connections_list := connections_list,
                 abs2prom_in := rg.var_abs2prom_in,
                 abs2prom_out := rg.var_abs2prom_out,
                 driver_name := driver_name,
                 driver_type := driver_type,
                 driver_options := driver_options,
                 driver_opt_settings := driver_opt_settings,
                 design_vars := rg.design_vars,
                 responses := rg.responses,
                 declare_partials_list := _get_declare_partials rg.sys },
               rg2)

/-- `_get_viewer_data(data_source)`.  The result triple is the returned
value, the (possibly mutated) data source, and the warnings issued through
`simple_warning`. -/
def _get_viewer_data (ds : DataSource) :
    Except String (ViewerData × DataSource × List String) :=
  match ds with
  | .problem p =>
      if p.model.sys.isGroup = false then
        .ok (.empty, ds, ["The model is not a Group, viewer data is unavailable."])
      else
        let driver_type := if p.driver.isDOE then "doe" else "optimization"
        let driver_opt_settings :=
          if driver_type = "optimization" ∧ p.driver.has_opt_settings then
            some p.driver.opt_settings
          else none
        match buildFull p.model (some p.driver.className) (some driver_type)
            (some p.driver.options) driver_opt_settings with
        | .error e => .error e
        | .ok (d, rg2) => .ok (.full d, .problem { p with model := rg2 }, [])
  | .group g =>
      if g.sys.pathname = "" then
        match buildFull g none none none none with
        | .error e => .error e
        | .ok (d, rg2) => .ok (.full d, .group rg2, [])
      else
        .ok (.empty, ds, [])
  | .filename _ md => .ok (.metadata md, ds, [])

/-! ### Growth of the pathname list, index stability -/

/-- `l₂` is `l₁` with entries appended at the end: how
`sys_pathnames_list` only ever grows during the connection loop. -/
def listExt {α : Type} (l₁ l₂ : List α) : Prop := ∃ t, l₂ = l₁ ++ t

/-! ### Helper projections over `_get_viewer_data` results, and small fixtures -/

/-- The emitted `connections_list` of a successful full build. -/
def connsOfResult (r : Except String (ViewerData × DataSource × List String)) :
    List Connection :=
  match r with
  | .ok (.full d, _, _) => d.connections_list
  | _ => []

/-- Whether the result carries the fully assembled dictionary. -/
def viewerResultFull (r : Except String (ViewerData × DataSource × List String)) :
    Bool :=
  match r with
  | .ok (vd, _, _) => vd.isFull
  | _ => false

/-- The `_conn_global_abs_in2out` attribute of the data source as it stands
after the call. -/
def dsAfterConn (r : Except String (ViewerData × DataSource × List String)) :
    Option (List (String × Option String)) :=
  match r with
  | .ok (_, .group g, _) => some g.conn_global_abs_in2out
  | .ok (_, .problem p, _) => some p.model.conn_global_abs_in2out
  | _ => none

/-- A minimal leaf-component fixture. -/
def mkComp (nm pth : String) : Comp :=
  { name := nm, pathname := pth, ctype := .explicit,
    var_abs_names_input := [], var_abs_names_output := [],
    var_discrete_input := [], var_discrete_output := [],
    var_abs2meta := [], var_abs2prom_input := [], var_abs2prom_output := [],
    solve_linear_override := false, solve_nonlinear_override := false,
    linear_solver := none, nonlinear_solver := none, subjacs := [] }

/-- A root-group fixture around a given hierarchy, connection dict and
component graph. -/
def mkRoot (s : System) (conn : List (String × Option String))
    (edges : List (String × String)) : RootGroup :=
  { sys := s, conn_global_abs_in2out := conn, sys_graph_edges := edges,
    var_abs2prom_in := [], var_abs2prom_out := [],
    design_vars := [], responses := [] }

/-- A two-component feedback model: `a.y → b.x` and `b.v → a.u`, with the
component graph containing the 2-cycle `{a, b}`. -/
def rgCyc : RootGroup :=
  mkRoot (.group "" "" false none none [.comp (mkComp "a" "a"), .comp (mkComp "b" "b")])
    [("b.x", some "a.y"), ("a.u", some "b.v")]
    [("a", "b"), ("b", "a")]

/-- A model whose connection dict is keyed out of sorted order. -/
def rgUnsorted : RootGroup :=
  mkRoot (.group "" "" false none none [])
    [("b", some "s"), ("a", some "t")] []

/-- A model whose sorted target keys pair with sources in anti-sorted
order. -/
def rgCross : RootGroup :=
  mkRoot (.group "" "" false none none [])
    [("b.x", some "z.y"), ("c.x", some "a.y")] []

/-- A composite subtree that is not the hierarchy root (its `pathname` is
non-empty). -/
def rgSub : RootGroup :=
  mkRoot (.group "sub" "sub" false none none []) [] []

/-- A `Problem` whose model is a bare leaf component, not a `Group`. -/
def pbLeaf : ProblemData :=
  { model := mkRoot (.comp (mkComp "c" "c")) [] [],
    driver := { className := "Driver", isDOE := false, options := [],
                has_opt_settings := false, opt_settings := [] } }

/-- The execution-order postcondition of `_get_tree_dict` for one system:
starting from any order dict disjoint from the leaves of the subtree, a
successful build appends exactly those leaves, paired with the
consecutive counter values. -/
def PtreeOrders (s : System) : Prop :=
  ∀ m i p t m' i', (leavesOf s).Nodup →
    (∀ x ∈ leavesOf s, x ∉ m.map Prod.fst) →
    _get_tree_dict s m i p = .ok (t, m', i') →
    m' = m ++ (leavesOf s).zip (List.range' i (leavesOf s).length) ∧
      i' = i + (leavesOf s).length

/-- The same postcondition for a list of sibling subtrees. -/
def PchildrenOrders (cs : List System) : Prop :=
  ∀ m i p ts m' i', (leavesOfList cs).Nodup →
    (∀ x ∈ leavesOfList cs, x ∉ m.map Prod.fst) →
    _get_tree_children cs m i p = .ok (ts, m', i') →
    m' = m ++ (leavesOfList cs).zip (List.range' i (leavesOfList cs).length) ∧
      i' = i + (leavesOfList cs).length

/-- The execution-order map of a successful root build. -/
def treeOrdersOf (s : System) : List (String × Nat) :=
  match _get_tree_dict s [] 0 false with
  | .ok (_, m, _) => m
  | .error _ => []

/-! ### Ordering of the children of a leaf (continuous before discrete) -/

/-- The variable dictionaries of the given names, in order (the mapped form
of the append loop of the source). -/
def varList (c : Comp) (typ : Direction) : List String →
    Except String (List VarDict)
  | [] => .ok []
  | n :: rest =>
      match _get_var_dict c typ n with
      | .error e => .error e
      | .ok v =>
          match varList c typ rest with
          | .error e => .error e
          | .ok vs => .ok (v :: vs)

/-- The children slot of a successful root build of a single system. -/
def treeChildren (s : System) : List (VarDict ⊕ TreeDict) :=
  match _get_tree_dict s [] 0 false with
  | .ok (t, _, _) => t.children
  | .error _ => []

/-- A leaf fixture with one continuous and one discrete variable in each
direction. -/
def compVars : Comp :=
  { name := "q", pathname := "q", ctype := .explicit,
    var_abs_names_input := ["q.cx"], var_abs_names_output := ["q.cy"],
    var_discrete_input := [("dx", "int")],
    var_discrete_output := [("dy", "str")],
    var_abs2meta := [("q.cx", "float"), ("q.cy", "float")],
    var_abs2prom_input := [("q.cx", "cx")],
    var_abs2prom_output := [("q.cy", "cy")],
    solve_linear_override := false, solve_nonlinear_override := false,
    linear_solver := none, nonlinear_solver := none, subjacs := [] }

/-- The connection list of the snapshot of a model (driver metadata does not
affect it). -/
def buildConns (rg : RootGroup) : List Connection :=
  match buildFull rg none none none none with
  | .ok (d, _) => d.connections_list
  | .error _ => []

/-- The ordering predicate of claim C1: consecutive entries sorted by the
`(src, tgt)` pair, lexicographically. -/
def srcTgtSortedB : List Connection → Bool
  | [] => true
  | [_] => true
  | a :: b :: rest =>
      (strLt a.src b.src || (a.src = b.src && strLe a.tgt b.tgt)) &&
        srcTgtSortedB (b :: rest)

/-! ### Fail-fast on multiple SCC membership -/

/-- Whether an `Except` result is a success. -/
def exceptIsOk {e a : Type} : Except e a → Bool
  | .ok _ => true
  | .error _ => false

/-! ### Cycle-arrow endpoints: SCC membership and execution-order window -/

/-- Whether the execution order of `x` lies in the closed window spanned by the
orders of `ss` and `ts` (false when any of the three is unmapped). -/
def inWindowB (ords : List (String × Nat)) (ss ts x : String) : Bool :=
  match List.lookup ss ords, List.lookup ts ords, List.lookup x ords with
  | some os, some ot, some ox => decide (min os ot ≤ ox ∧ ox ≤ max os ot)
  | _, _, _ => false

/-! ### Generic facts about the stable insertion sort -/

theorem insertLe_cons {α : Type} (le : α → α → Bool) (a b : α) (bs : List α) :
    insertLe le a (b :: bs) =
      if le a b then a :: b :: bs else b :: insertLe le a bs := rfl

theorem insertLe_perm {α : Type} (le : α → α → Bool) (a : α) :
    ∀ l : List α, (insertLe le a l).Perm (a :: l) := by
  intro l
  induction l with
  | nil => simp [insertLe]
  | cons b bs ih =>
      rw [insertLe_cons]
      cases h : le a b with
      | true => rw [if_pos rfl]
      | false =>
          rw [if_neg (by simp [h])]
          exact (ih.cons b).trans (List.Perm.swap a b bs)

theorem sortLe_perm {α : Type} (le : α → α → Bool) :
    ∀ l : List α, (sortLe le l).Perm l := by
  intro l
  induction l with
  | nil => simp [sortLe]
  | cons a l ih =>
      have : sortLe le (a :: l) = insertLe le a (sortLe le l) := rfl
      rw [this]
      exact (insertLe_perm le a (sortLe le l)).trans (ih.cons a)

theorem insertLe_chain' {α : Type} (le : α → α → Bool)
    (htot : ∀ x y, le x y = false → le y x = true) (a : α) :
    ∀ l : List α, List.Chain' (fun x y => le x y = true) l →
      List.Chain' (fun x y => le x y = true) (insertLe le a l) := by
  intro l
  induction l with
  | nil => intro _; simp [insertLe]
  | cons b bs ih =>
      intro hch
      rw [insertLe_cons]
      cases hab : le a b with
      | true => simp only [if_pos rfl]; exact List.chain'_cons.mpr ⟨hab, hch⟩
      | false =>
          have hba : le b a = true := htot a b hab
          have hbs : List.Chain' (fun x y => le x y = true) bs := hch.tail
          have hins := ih hbs
          simp only [Bool.false_eq_true, if_false]
          cases bs with
          | nil => simpa [insertLe] using hba
          | cons c cs =>
              rw [insertLe_cons] at hins ⊢
              cases hac : le a c with
              | true =>
                  rw [if_pos rfl]
                  exact List.chain'_cons.mpr ⟨hba,
                    List.chain'_cons.mpr ⟨hac, hbs⟩⟩
              | false =>
                  rw [if_neg (by simp [hac])] at hins ⊢
                  exact List.chain'_cons.mpr
                    ⟨(List.chain'_cons.mp hch).1, hins⟩

theorem sortLe_chain' {α : Type} (le : α → α → Bool)
    (htot : ∀ x y, le x y = false → le y x = true) :
    ∀ l : List α, List.Chain' (fun x y => le x y = true) (sortLe le l) := by
  intro l
  induction l with
  | nil => simp [sortLe]
  | cons a l ih => exact insertLe_chain' le htot a (sortLe le l) ih

theorem charListLe_total : ∀ as bs, charListLe as bs = false →
    charListLe bs as = true := by
  intro as
  induction as with
  | nil => intro bs h; simp [charListLe] at h
  | cons a as ih =>
      intro bs h
      cases bs with
      | nil => simp [charListLe]
      | cons b bs =>
          simp only [charListLe, Bool.or_eq_false_iff, Bool.and_eq_false_iff,
            decide_eq_false_iff_not] at h
          obtain ⟨hab, h2⟩ := h
          by_cases heq : a = b
          · subst heq
            have hle : charListLe as bs = false := by
              cases h2 with
              | inl h3 => simp at h3
              | inr h3 => exact h3
            simp [charListLe, ih bs hle]
          · have hba : b < a := by
              rcases lt_trichotomy a b with h3 | h3 | h3
              · exact absurd h3 hab
              · exact absurd h3 heq
              · exact h3
            simp [charListLe, hba]

theorem charListLe_trans : ∀ as bs cs, charListLe as bs = true →
    charListLe bs cs = true → charListLe as cs = true := by
  intro as
  induction as with
  | nil => intro bs cs _ _; simp [charListLe]
  | cons a as ih =>
      intro bs cs h1 h2
      cases bs with
      | nil => simp [charListLe] at h1
      | cons b bs =>
          cases cs with
          | nil => simp [charListLe] at h2
          | cons c cs =>
              simp only [charListLe, Bool.or_eq_true, Bool.and_eq_true,
                decide_eq_true_eq] at h1 h2 ⊢
              rcases h1 with h1 | ⟨rfl, h1⟩
              · rcases h2 with h2 | ⟨rfl, h2⟩
                · exact Or.inl (lt_trans h1 h2)
                · exact Or.inl h1
              · rcases h2 with h2 | ⟨rfl, h2⟩
                · exact Or.inl h2
                · exact Or.inr ⟨rfl, ih bs cs h1 h2⟩

theorem charListLe_eq_lt_or_eq : ∀ as bs, charListLe as bs = true ↔
    (charListLt as bs = true ∨ as = bs) := by
  intro as
  induction as with
  | nil =>
      intro bs
      cases bs with
      | nil => simp [charListLe, charListLt]
      | cons b bs => simp [charListLe, charListLt]
  | cons a as ih =>
      intro bs
      cases bs with
      | nil => simp [charListLe, charListLt]
      | cons b bs =>
          simp only [charListLe, charListLt, Bool.or_eq_true,
            Bool.and_eq_true, decide_eq_true_eq, List.cons.injEq]
          constructor
          · rintro (h | ⟨rfl, h⟩)
            · exact Or.inl (Or.inl h)
            · rcases (ih bs).mp h with h2 | rfl
              · exact Or.inl (Or.inr ⟨rfl, h2⟩)
              · exact Or.inr ⟨rfl, rfl⟩
          · rintro ((h | ⟨rfl, h⟩) | ⟨rfl, rfl⟩)
            · exact Or.inl h
            · exact Or.inr ⟨rfl, (ih _).mpr (Or.inl h)⟩
            · exact Or.inr ⟨rfl, (ih _).mpr (Or.inr rfl)⟩

theorem strLe_total : ∀ x y, strLe x y = false → strLe y x = true := by
  intro x y h
  exact charListLe_total x.data y.data h

theorem strLe_trans : ∀ x y z, strLe x y = true → strLe y z = true →
    strLe x z = true := by
  intro x y z h1 h2
  exact charListLe_trans x.data y.data z.data h1 h2

theorem strLe_eq_lt_or_eq : ∀ x y, strLe x y = true ↔
    (strLt x y = true ∨ x = y) := by
  intro x y
  rw [strLe, strLt, charListLe_eq_lt_or_eq]
  constructor
  · rintro (h | h)
    · exact Or.inl h
    · cases x with
      | mk xd =>
          cases y with
          | mk yd =>
              have h2 : xd = yd := h
              subst h2
              exact Or.inr rfl
  · rintro (h | rfl)
    · exact Or.inl h
    · exact Or.inr rfl

theorem connKeyLe_total :
    ∀ x y, connKeyLe x y = false → connKeyLe y x = true := by
  intro x y h
  exact strLe_total x.1 y.1 h

theorem pairLe_total : ∀ x y, pairLe x y = false → pairLe y x = true := by
  intro x y h
  simp only [pairLe, decide_eq_false_iff_not] at h
  push_neg at h
  simp only [pairLe, decide_eq_true_eq]
  omega

theorem listExt_refl {α : Type} (l : List α) : listExt l l := ⟨[], by simp⟩

theorem listExt_trans {α : Type} {l₁ l₂ l₃ : List α}
    (h : listExt l₁ l₂) (h2 : listExt l₂ l₃) : listExt l₁ l₃ := by
  obtain ⟨t, rfl⟩ := h
  obtain ⟨u, rfl⟩ := h2
  exact ⟨t ++ u, by simp⟩

theorem listExt_mem {α : Type} {l₁ l₂ : List α} (h : listExt l₁ l₂) {a : α}
    (ha : a ∈ l₁) : a ∈ l₂ := by
  obtain ⟨t, rfl⟩ := h
  exact List.mem_append_left t ha

theorem listExt_getElem? {α : Type} {l₁ l₂ : List α} (h : listExt l₁ l₂)
    {n : Nat} {a : α} (ha : l₁[n]? = some a) : l₂[n]? = some a := by
  obtain ⟨t, rfl⟩ := h
  have hn : n < l₁.length := by
    rcases List.getElem?_eq_some_iff.mp ha with ⟨hlt, _⟩
    exact hlt
  rw [List.getElem?_append_left hn]
  exact ha

theorem registerPath_ext (spl : List String) (p : String) :
    listExt spl (registerPath spl p) := by
  unfold registerPath
  by_cases h : p ∈ spl
  · simp [h, listExt_refl]
  · simp only [h, if_neg, if_false]
    exact ⟨[p], by simp⟩

theorem registerPath_mem (spl : List String) (p : String) :
    p ∈ registerPath spl p := by
  unfold registerPath
  by_cases h : p ∈ spl
  · simpa [h] using h
  · simp [h]

theorem idxOf_getElem? : ∀ (l : List String) (s : String), s ∈ l →
    l[idxOf l s]? = some s := by
  intro l
  induction l with
  | nil => intro s hs; cases hs
  | cons a rest ih =>
      intro s hs
      by_cases h : a = s
      · subst h
        simp [idxOf]
      · have hs' : s ∈ rest := by
          cases List.mem_cons.mp hs with
          | inl h2 => exact absurd h2.symm h
          | inr h2 => exact h2
        simp only [idxOf, if_neg h]
        simpa using ih s hs'

theorem buildFull_updates_conn (rg : RootGroup) (dn dt : Option String)
    (dop dos : Option (List (String × String))) (d : DataDict)
    (rg2 : RootGroup) (h : buildFull rg dn dt dop dos = .ok (d, rg2)) :
    rg2 = { rg with
      conn_global_abs_in2out := sortLe connKeyLe rg.conn_global_abs_in2out } := by
  unfold buildFull at h
  cases ht : _get_tree_dict rg.sys [] 0 false with
  | error e => rw [ht] at h; cases h
  | ok res =>
      obtain ⟨tree, orders, k⟩ := res
      rw [ht] at h
      simp only at h
      cases hc : connLoop (sccListOfGraph rg.sys_graph_edges) orders
          rg.sys_graph_edges (sortLe connKeyLe rg.conn_global_abs_in2out) [] [] with
      | error e => rw [hc] at h; cases h
      | ok res2 =>
          obtain ⟨conns, spl⟩ := res2
          rw [hc] at h
          simp only [Except.ok.injEq, Prod.mk.injEq] at h
          exact h.2.symm

theorem viewer_problem_eq (p : ProblemData) : _get_viewer_data (.problem p) =
    (if p.model.sys.isGroup = false then
      .ok (.empty, .problem p,
        ["The model is not a Group, viewer data is unavailable."])
    else
      let driver_type := if p.driver.isDOE then "doe" else "optimization"
      let driver_opt_settings :=
        if driver_type = "optimization" ∧ p.driver.has_opt_settings then
          some p.driver.opt_settings
        else none
      match buildFull p.model (some p.driver.className) (some driver_type)
          (some p.driver.options) driver_opt_settings with
      | .error e => .error e
      | .ok (d, rg2) =>
          .ok (.full d, .problem { p with model := rg2 }, [])) := rfl

/-- C9: A `Problem` whose model is not a composite container produces
the empty structure `{}` together with the descriptive warning, and no
exception is raised. -/
theorem viewer_nonGroup_soft_degrade (p : ProblemData)
    (h : p.model.sys.isGroup = false) :
    _get_viewer_data (.problem p) =
      .ok (.empty, .problem p,
        ["The model is not a Group, viewer data is unavailable."]) := by
  rw [viewer_problem_eq, h]
  simp

theorem viewer_nonGroup_soft_degrade_witness :
    _get_viewer_data (.problem pbLeaf) =
      .ok (.empty, .problem pbLeaf,
        ["The model is not a Group, viewer data is unavailable."]) :=
  viewer_nonGroup_soft_degrade pbLeaf rfl

/-- C3, counterexample: A live composite subtree that is not the root
(non-empty `pathname`) is *not* normalized into the full snapshot shape: the
call returns the bare `{}`. -/
theorem viewer_subtree_empty_cex :
    _get_viewer_data (.group rgSub) = .ok (.empty, .group rgSub, []) ∧
      ViewerData.isFull .empty = false :=
  ⟨rfl, rfl⟩

/-- C3, amended: Only a live composite handed in as the hierarchy root
(empty `pathname`) is normalized into the full snapshot shape; a non-root
composite subtree yields the empty structure instead. -/
theorem viewer_group_eq (g : RootGroup) : _get_viewer_data (.group g) =
    (if g.sys.pathname = "" then
      match buildFull g none none none none with
      | .error e => .error e
      | .ok (d, rg2) => .ok (.full d, .group rg2, [])
    else .ok (.empty, .group g, [])) := rfl

theorem viewer_root_group_full (g : RootGroup) (vd : ViewerData)
    (ds2 : DataSource) (ws : List String) (hroot : g.sys.pathname = "")
    (h : _get_viewer_data (.group g) = .ok (vd, ds2, ws)) :
    vd.isFull = true := by
  rw [viewer_group_eq, hroot] at h
  simp only [if_pos rfl] at h
  cases hb : buildFull g none none none none with
  | error e => rw [hb] at h; cases h
  | ok res =>
      obtain ⟨d, rg2⟩ := res
      rw [hb] at h
      cases h
      rfl

theorem viewer_root_group_full_witness :
    viewerResultFull (_get_viewer_data (.group (mkRoot
      (.group "" "" false none none []) [] []))) = true := by
  have h := viewer_root_group_full (mkRoot (.group "" "" false none none []) [] [])
    _ _ _ rfl rfl
  exact h

/-- C2, counterexample: The snapshot build *does* mutate the model: for
a model whose connection dict is keyed out of sorted order, the call leaves
`_conn_global_abs_in2out` reassigned to the key-sorted copy, which differs
from its value before the call. -/
theorem viewer_mutation_cex :
    dsAfterConn (_get_viewer_data (.group rgUnsorted)) =
        some [("a", some "t"), ("b", some "s")] ∧
      rgUnsorted.conn_global_abs_in2out ≠ [("a", some "t"), ("b", some "s")] :=
  ⟨rfl, by decide⟩

/-- C2, amended: The build leaves every field of the model unchanged
*except* `_conn_global_abs_in2out`, which line 234 of the source replaces by
the key-sorted permutation of its previous value (so the mapping holds the
same associations, reordered). -/
theorem viewer_mutates_conn_sorted (g : RootGroup) (vd : ViewerData)
    (ds2 : DataSource) (ws : List String) (hroot : g.sys.pathname = "")
    (h : _get_viewer_data (.group g) = .ok (vd, ds2, ws)) :
    ds2 = .group { g with
        conn_global_abs_in2out := sortLe connKeyLe g.conn_global_abs_in2out } ∧
      (sortLe connKeyLe g.conn_global_abs_in2out).Perm
        g.conn_global_abs_in2out := by
  rw [viewer_group_eq, hroot] at h
  simp only [if_pos rfl] at h
  cases hb : buildFull g none none none none with
  | error e => rw [hb] at h; cases h
  | ok res =>
      obtain ⟨d, rg2⟩ := res
      rw [hb] at h
      cases h
      exact ⟨by rw [buildFull_updates_conn g none none none none d rg2 hb],
        sortLe_perm connKeyLe g.conn_global_abs_in2out⟩

theorem viewer_mutates_conn_sorted_witness :
    (sortLe connKeyLe rgUnsorted.conn_global_abs_in2out).Perm
      rgUnsorted.conn_global_abs_in2out :=
  (viewer_mutates_conn_sorted rgUnsorted _ _ _ rfl rfl).2

/-! ### Execution-order bookkeeping of the tree builder -/

theorem dictInsert_of_fresh (m : List (String × Nat)) (k : String) (v : Nat)
    (h : k ∉ m.map Prod.fst) : dictInsert m k v = m ++ [(k, v)] := by
  unfold dictInsert
  rw [if_neg]
  simp only [List.any_eq_true, not_exists, not_and]
  intro p hp hk
  have hk2 : p.1 = k := of_decide_eq_true hk
  exact h (hk2 ▸ List.mem_map_of_mem Prod.fst hp)

theorem treeOrders_fuel : ∀ n : Nat,
    (∀ s : System, sizeOf s ≤ n → PtreeOrders s) ∧
    (∀ cs : List System, sizeOf cs ≤ n → PchildrenOrders cs) := by
  intro n
  induction n with
  | zero =>
      constructor
      · intro s hs
        exfalso
        cases s <;> simp_arith at hs
      · intro cs hcs
        exfalso
        cases cs <;> simp_arith at hcs
  | succ n ih =>
      constructor
      · intro s hs
        cases s with
        | comp c =>
            intro m i p t m' i' hnd hdisj h
            simp only [_get_tree_dict] at h
            cases hc : compChildren c with
            | error e => rw [hc] at h; cases h
            | ok vars =>
                rw [hc] at h
                simp only [Except.ok.injEq, Prod.mk.injEq] at h
                have hfresh : c.pathname ∉ m.map Prod.fst :=
                  hdisj c.pathname (by simp [leavesOf])
                obtain ⟨_, hm, hi⟩ := h
                constructor
                · rw [← hm, dictInsert_of_fresh m c.pathname i hfresh]
                  simp [leavesOf, List.range']
                · rw [← hi]
                  simp [leavesOf]
        | group nm pth ispar lin nonlin cs =>
            intro m i p t m' i' hnd hdisj h
            simp only [_get_tree_dict] at h
            cases hc : _get_tree_children cs m i (p || ispar) with
            | error e => rw [hc] at h; cases h
            | ok res =>
                obtain ⟨subs, m2, i2⟩ := res
                rw [hc] at h
                simp only [Except.ok.injEq, Prod.mk.injEq] at h
                obtain ⟨_, hm, hi⟩ := h
                have hsz : sizeOf cs ≤ n := by
                  simp_arith at hs
                  omega
                have := ih.2 cs hsz m i (p || ispar) subs m2 i2
                  (by simpa [leavesOf] using hnd)
                  (by simpa [leavesOf] using hdisj) hc
                rw [← hm, ← hi]
                simpa [leavesOf] using this
      · intro cs hcs
        cases cs with
        | nil =>
            intro m i p ts m' i' _ _ h
            simp only [_get_tree_children] at h
            simp only [Except.ok.injEq, Prod.mk.injEq] at h
            obtain ⟨_, hm, hi⟩ := h
            simp [leavesOfList, ← hm, ← hi]
        | cons s rest =>
            intro m i p ts m' i' hnd hdisj h
            simp only [_get_tree_children] at h
            cases h1 : _get_tree_dict s m i p with
            | error e => rw [h1] at h; cases h
            | ok res1 =>
                obtain ⟨t1, m2, i2⟩ := res1
                rw [h1] at h
                simp only at h
                cases h2 : _get_tree_children rest m2 i2 p with
                | error e => rw [h2] at h; cases h
                | ok res2 =>
                    obtain ⟨ts2, m3, i3⟩ := res2
                    rw [h2] at h
                    simp only [Except.ok.injEq, Prod.mk.injEq] at h
                    obtain ⟨_, hm, hi⟩ := h
                    have hszs : sizeOf s ≤ n := by
                      simp_arith at hcs
                      omega
                    have hszr : sizeOf rest ≤ n := by
                      simp_arith at hcs
                      omega
                    have hndapp :
                        (leavesOf s).Nodup ∧ (leavesOfList rest).Nodup ∧
                          ∀ x ∈ leavesOf s, x ∉ leavesOfList rest := by
                      have := hnd
                      simp only [leavesOfList, List.nodup_append] at this
                      exact ⟨this.1, this.2.1, fun x hx => this.2.2 hx⟩
                    have hd1 : ∀ x ∈ leavesOf s, x ∉ m.map Prod.fst :=
                      fun x hx => hdisj x (by simp [leavesOfList, hx])
                    have hs1 := ih.1 s hszs m i p t1 m2 i2 hndapp.1 hd1 h1
                    obtain ⟨hm2, hi2⟩ := hs1
                    have hd2 : ∀ x ∈ leavesOfList rest, x ∉ m2.map Prod.fst := by
                      intro x hx
                      rw [hm2]
                      simp only [List.map_append, List.mem_append, not_or]
                      refine ⟨hdisj x (by simp [leavesOfList, hx]), ?_⟩
                      rw [List.map_fst_zip _ _ (by simp [List.length_range'])]
                      exact fun hx2 => hndapp.2.2 x hx2 hx
                    have hs2 := ih.2 rest hszr m2 i2 p ts2 m3 i3 hndapp.2.1 hd2 h2
                    obtain ⟨hm3, hi3⟩ := hs2
                    constructor
                    · rw [← hm, hm3, hm2, hi2, List.append_assoc]
                      congr 1
                      have h0 := List.range'_append i (leavesOf s).length
                        (leavesOfList rest).length 1
                      simp only [one_mul] at h0
                      have hrange : List.range' i (leavesOfList (s :: rest)).length =
                          List.range' i (leavesOf s).length ++
                            List.range' (i + (leavesOf s).length)
                              (leavesOfList rest).length := by
                        rw [show (leavesOfList (s :: rest)).length =
                            (leavesOfList rest).length + (leavesOf s).length from by
                          simp [leavesOfList, Nat.add_comm]]
                        exact h0.symm
                      rw [hrange,
                        show leavesOfList (s :: rest) =
                          leavesOf s ++ leavesOfList rest from rfl,
                        List.zip_append (by simp [List.length_range'])]
                    · rw [← hi, hi3, hi2]
                      simp [leavesOfList, Nat.add_assoc]

/-- C7: After the tree builder finishes on a model (whose leaf
pathnames are distinct, as real pathnames are), the execution-order map
lists exactly the leaf pathnames in depth-first order, each exactly once,
with values exactly the contiguous range `[0, leafCount)` in increasing
order. -/
theorem execution_order_totality (s : System)
    (hnd : (leavesOf s).Nodup) (t : TreeDict) (m : List (String × Nat))
    (k : Nat) (h : _get_tree_dict s [] 0 false = .ok (t, m, k)) :
    m.map Prod.fst = leavesOf s ∧
      m.map Prod.snd = List.range (leavesOf s).length ∧
      k = (leavesOf s).length := by
  have hP := (treeOrders_fuel (sizeOf s)).1 s (le_refl _)
  have := hP [] 0 false t m k hnd (by simp) h
  obtain ⟨hm, hk⟩ := this
  rw [hm]
  refine ⟨?_, ?_, by simpa using hk⟩
  · simp only [List.nil_append]
    exact List.map_fst_zip _ _ (by simp [List.length_range'])
  · simp only [List.nil_append]
    rw [List.range_eq_range']
    exact List.map_snd_zip _ _ (by simp [List.length_range'])

theorem execution_order_totality_witness :
    (treeOrdersOf rgCyc.sys).map Prod.fst = leavesOf rgCyc.sys ∧
      (treeOrdersOf rgCyc.sys).map Prod.snd =
        List.range (leavesOf rgCyc.sys).length ∧
      2 = (leavesOf rgCyc.sys).length := by
  have h := execution_order_totality rgCyc.sys (by decide) _ _ _ rfl
  exact h

theorem appendVars_eq_varList (c : Comp) (typ : Direction) :
    ∀ (names : List String) (acc r : List VarDict),
      appendVars c typ names acc = .ok r →
      ∃ vs, varList c typ names = .ok vs ∧ r = acc ++ vs := by
  intro names
  induction names with
  | nil =>
      intro acc r h
      simp only [appendVars, Except.ok.injEq] at h
      exact ⟨[], rfl, by simp [h]⟩
  | cons n rest ih =>
      intro acc r h
      simp only [appendVars] at h
      cases hv : _get_var_dict c typ n with
      | error e => rw [hv] at h; cases h
      | ok v =>
          rw [hv] at h
          obtain ⟨vs, hvs, hr⟩ := ih (acc ++ [v]) r h
          refine ⟨v :: vs, ?_, by simp [hr]⟩
          simp [varList, hv, hvs]

/-- C10: In the children list of a leaf component, within each direction the
continuous (declared) variables all precede the discrete ones: the list is
exactly continuous inputs, then discrete inputs, then continuous outputs,
then discrete outputs. -/
theorem leaf_children_order (c : Comp) (m : List (String × Nat)) (i : Nat)
    (p : Bool) (t : TreeDict) (m' : List (String × Nat)) (i' : Nat)
    (h : _get_tree_dict (.comp c) m i p = .ok (t, m', i')) :
    ∃ a b d e,
      varList c .input c.var_abs_names_input = .ok a ∧
      varList c .input (c.var_discrete_input.map Prod.fst) = .ok b ∧
      varList c .output c.var_abs_names_output = .ok d ∧
      varList c .output (c.var_discrete_output.map Prod.fst) = .ok e ∧
      t.children = (a ++ b ++ d ++ e).map Sum.inl := by
  simp only [_get_tree_dict] at h
  cases hc : compChildren c with
  | error e => rw [hc] at h; cases h
  | ok vars =>
      rw [hc] at h
      simp only [Except.ok.injEq, Prod.mk.injEq] at h
      obtain ⟨ht, _, _⟩ := h
      unfold compChildren at hc
      cases h1 : dirChildren c Direction.input [] with
      | error e => rw [h1] at hc; cases hc
      | ok acc1 =>
          rw [h1] at hc
          simp only at hc
          unfold dirChildren at h1 hc
          cases h2 : appendVars c Direction.input
              (c.varAbsNames Direction.input) [] with
          | error e => rw [h2] at h1; cases h1
          | ok acc2 =>
              rw [h2] at h1
              simp only at h1
              cases h3 : appendVars c Direction.output
                  (c.varAbsNames Direction.output) acc1 with
              | error e => rw [h3] at hc; cases hc
              | ok acc3 =>
                  rw [h3] at hc
                  simp only at hc
                  obtain ⟨a, ha, hacc2⟩ := appendVars_eq_varList c _ _ _ _ h2
                  obtain ⟨b, hb, hacc1⟩ := appendVars_eq_varList c _ _ _ _ h1
                  obtain ⟨d, hd, hacc3⟩ := appendVars_eq_varList c _ _ _ _ h3
                  obtain ⟨e, he, hvars⟩ := appendVars_eq_varList c _ _ _ _ hc
                  refine ⟨a, b, d, e, ha, hb, hd, he, ?_⟩
                  rw [← ht]
                  simp [TreeDict.children, hvars, hacc3, hacc1, hacc2]

theorem leaf_children_order_witness :
    ∃ a b d e,
      varList compVars .input compVars.var_abs_names_input = .ok a ∧
      varList compVars .input (compVars.var_discrete_input.map Prod.fst) = .ok b ∧
      varList compVars .output compVars.var_abs_names_output = .ok d ∧
      varList compVars .output (compVars.var_discrete_output.map Prod.fst) = .ok e ∧
      treeChildren (.comp compVars) = (a ++ b ++ d ++ e).map Sum.inl := by
  obtain ⟨a, b, d, e, h1, h2, h3, h4, h5⟩ :=
    leaf_children_order compVars [] 0 false _ _ _ rfl
  exact ⟨a, b, d, e, h1, h2, h3, h4, h5⟩

/-! ### The connection loop: emitted targets and sources -/

theorem connLoop_tgt_src (scc_list : List (List String))
    (ords : List (String × Nat)) (G : List (String × String)) :
    ∀ (pairs : List (String × Option String)) (spl : List String)
      (acc conns : List Connection) (spl' : List String),
      connLoop scc_list ords G pairs spl acc = .ok (conns, spl') →
      conns.map (fun c => (c.tgt, c.src)) =
        acc.map (fun c => (c.tgt, c.src)) ++
          pairs.filterMap (fun p => p.2.map (fun o => (p.1, o))) := by
  intro pairs
  induction pairs with
  | nil =>
      intro spl acc conns spl' h
      simp only [connLoop, Except.ok.injEq, Prod.mk.injEq] at h
      simp [← h.1]
  | cons pr rest ih =>
      intro spl acc conns spl' h
      obtain ⟨in_abs, ob⟩ := pr
      cases ob with
      | none =>
          simp only [connLoop] at h
          simpa using ih spl acc conns spl' h
      | some out_abs =>
          simp only [connLoop] at h
          cases hs : sccScan (ownerPath out_abs) (ownerPath in_abs)
              (ownerPath out_abs ++ " " ++ ownerPath in_abs) ords G scc_list 0 []
              spl with
          | error e => rw [hs] at h; cases h
          | ok res =>
              obtain ⟨edges_list, spl2⟩ := res
              rw [hs] at h
              simp only at h
              have := ih spl2 _ conns spl' h
              rw [this]
              by_cases he : edges_list.isEmpty
              · simp [he]
              · simp [he]

theorem countP_filterMap_conn_not_mem (i : String) :
    ∀ l : List (String × Option String), i ∉ l.map Prod.fst →
      (l.filterMap (fun p => p.2.map (fun o => (p.1, o)))).countP
        (fun p => p.1 = i) = 0 := by
  intro l
  induction l with
  | nil => intro _; simp
  | cons a rest ih =>
      intro hni
      simp only [List.map_cons, List.mem_cons, not_or] at hni
      obtain ⟨ha, hrest⟩ := hni
      obtain ⟨k, ob⟩ := a
      cases ob with
      | none => simpa using ih hrest
      | some o =>
          simp only [List.filterMap_cons, Option.map_some']
          rw [List.countP_cons]
          have : (fun p : String × String => decide (p.1 = i)) (k, o) = false := by
            simp
            intro hk
            exact absurd hk.symm (by simpa using ha)
          simp only [this]
          simpa using ih hrest

theorem countP_filterMap_conn_key (i : String) (o : Option String) :
    ∀ l : List (String × Option String), (l.map Prod.fst).Nodup →
      (i, o) ∈ l →
      (l.filterMap (fun p => p.2.map (fun ob => (p.1, ob)))).countP
        (fun p => p.1 = i) = if o.isSome then 1 else 0 := by
  intro l
  induction l with
  | nil => intro _ hmem; cases hmem
  | cons a rest ih =>
      intro hnd hmem
      simp only [List.map_cons, List.nodup_cons] at hnd
      obtain ⟨hni, hndr⟩ := hnd
      cases List.mem_cons.mp hmem with
      | inl heq =>
          subst heq
          cases o with
          | none =>
              simp only [List.filterMap_cons, Option.map_none', Option.isSome_none,
                if_neg Bool.false_ne_true]
              exact countP_filterMap_conn_not_mem i rest hni
          | some s =>
              simp only [List.filterMap_cons, Option.map_some', Option.isSome_some,
                if_pos rfl]
              rw [List.countP_cons]
              have h0 := countP_filterMap_conn_not_mem i rest hni
              simp [h0]
      | inr hmemr =>
          have hik : i ∈ rest.map Prod.fst :=
            List.mem_map_of_mem Prod.fst hmemr
          have hai : a.1 ≠ i := fun hh => hni (hh ▸ hik)
          obtain ⟨k, ob⟩ := a
          cases ob with
          | none => simpa using ih hndr hmemr
          | some s =>
              simp only [List.filterMap_cons, Option.map_some']
              rw [List.countP_cons]
              have : (fun p : String × String => decide (p.1 = i)) (k, s) = false := by
                simpa using hai
              simp only [this]
              simpa using ih hndr hmemr

/-- Inversion of a successful `buildFull`: the emitted `connections_list`
and `sys_pathnames_list` come from the connection loop run over the sorted
connection dict with the execution orders of the tree builder. -/
theorem buildFull_conns (rg : RootGroup) (dn dt : Option String)
    (dop dos : Option (List (String × String))) (d : DataDict)
    (rg2 : RootGroup) (h : buildFull rg dn dt dop dos = .ok (d, rg2)) :
    ∃ t orders k,
      _get_tree_dict rg.sys [] 0 false = .ok (t, orders, k) ∧
      connLoop (sccListOfGraph rg.sys_graph_edges) orders rg.sys_graph_edges
        (sortLe connKeyLe rg.conn_global_abs_in2out) [] [] =
        .ok (d.connections_list, d.sys_pathnames_list) := by
  unfold buildFull at h
  cases ht : _get_tree_dict rg.sys [] 0 false with
  | error e => rw [ht] at h; cases h
  | ok res =>
      obtain ⟨tree, orders, k⟩ := res
      rw [ht] at h
      simp only at h
      cases hc : connLoop (sccListOfGraph rg.sys_graph_edges) orders
          rg.sys_graph_edges (sortLe connKeyLe rg.conn_global_abs_in2out)
          [] [] with
      | error e => rw [hc] at h; cases h
      | ok res2 =>
          obtain ⟨conns, spl⟩ := res2
          rw [hc] at h
          cases h
          exact ⟨tree, orders, k, rfl, hc⟩

/-- C8: Every target input with a defined source yields exactly one
entry of `connections_list`, and a target input whose source is undefined
(`None`) yields none at all. -/
theorem target_conn_count (rg : RootGroup) (dn dt : Option String)
    (dop dos : Option (List (String × String))) (d : DataDict)
    (rg2 : RootGroup)
    (hnd : (rg.conn_global_abs_in2out.map Prod.fst).Nodup)
    (h : buildFull rg dn dt dop dos = .ok (d, rg2))
    (in_abs : String) (o : Option String)
    (hmem : (in_abs, o) ∈ rg.conn_global_abs_in2out) :
    (d.connections_list.filter (fun c => c.tgt = in_abs)).length =
      if o.isSome then 1 else 0 := by
  obtain ⟨t, orders, k, ht, hc⟩ := buildFull_conns rg dn dt dop dos d rg2 h
  have hmap := connLoop_tgt_src (sccListOfGraph rg.sys_graph_edges) orders
    rg.sys_graph_edges (sortLe connKeyLe rg.conn_global_abs_in2out) [] []
    d.connections_list d.sys_pathnames_list hc
  simp only [List.map_nil, List.nil_append] at hmap
  rw [← List.countP_eq_length_filter]
  have hcm : d.connections_list.countP (fun c => decide (c.tgt = in_abs)) =
      (d.connections_list.map (fun c => (c.tgt, c.src))).countP
        (fun p => decide (p.1 = in_abs)) := by
    rw [List.countP_map]
    rfl
  rw [hcm, hmap]
  have hperm := (sortLe_perm connKeyLe rg.conn_global_abs_in2out).filterMap
    (fun p => p.2.map (fun ob => (p.1, ob)))
  rw [hperm.countP_eq]
  exact countP_filterMap_conn_key in_abs o rg.conn_global_abs_in2out hnd hmem

theorem target_conn_count_witness :
    ((buildConns rgCyc).filter (fun c => c.tgt = "b.x")).length =
      if (some "a.y" : Option String).isSome then 1 else 0 := by
  have h := target_conn_count rgCyc none none none none _ _ (by decide) rfl
    "b.x" (some "a.y") (by decide)
  exact h

/-- C1, counterexample: The final connection list is *not* in general
sorted by `(src, tgt)`: the loop iterates the dict sorted by its keys, which
are the *target* paths, and the paired sources may arrive in any order. -/
theorem conn_list_sorted_cex :
    buildConns rgCross =
      [{ src := "z.y", tgt := "b.x", cycle_arrows := none },
       { src := "a.y", tgt := "c.x", cycle_arrows := none }] ∧
      srcTgtSortedB
        [{ src := "z.y", tgt := "b.x", cycle_arrows := none },
         { src := "a.y", tgt := "c.x", cycle_arrows := none }] = false :=
  ⟨rfl, rfl⟩

/-- C1, amended: The final connection list is built in the sorted order
of `(target-path, source-path)` pairs (the loop follows the sorted dict
keys, which are the target paths): any two consecutive entries are
lexicographically nondecreasing in `(tgt, src)`. -/
theorem conn_list_sorted (rg : RootGroup) (dn dt : Option String)
    (dop dos : Option (List (String × String))) (d : DataDict)
    (rg2 : RootGroup)
    (hnd : (rg.conn_global_abs_in2out.map Prod.fst).Nodup)
    (h : buildFull rg dn dt dop dos = .ok (d, rg2)) :
    List.Chain' (fun a b => strLt a.tgt b.tgt = true ∨
      (a.tgt = b.tgt ∧ strLe a.src b.src = true)) d.connections_list := by
  obtain ⟨t, orders, k, ht, hc⟩ := buildFull_conns rg dn dt dop dos d rg2 h
  have hmap := connLoop_tgt_src (sccListOfGraph rg.sys_graph_edges) orders
    rg.sys_graph_edges (sortLe connKeyLe rg.conn_global_abs_in2out) [] []
    d.connections_list d.sys_pathnames_list hc
  simp only [List.map_nil, List.nil_append] at hmap
  have hch : List.Chain' (fun p q => connKeyLe p q = true)
      (sortLe connKeyLe rg.conn_global_abs_in2out) :=
    sortLe_chain' connKeyLe connKeyLe_total rg.conn_global_abs_in2out
  haveI : IsTrans (String × Option String) (fun p q => connKeyLe p q = true) :=
    ⟨fun a b c hab hbc => strLe_trans a.1 b.1 c.1 hab hbc⟩
  have hpw := List.chain'_iff_pairwise.mp hch
  have hnd2 : ((sortLe connKeyLe rg.conn_global_abs_in2out).map
      Prod.fst).Nodup := by
    have hperm := (sortLe_perm connKeyLe rg.conn_global_abs_in2out).map Prod.fst
    exact hperm.nodup_iff.mpr hnd
  have hne : (sortLe connKeyLe rg.conn_global_abs_in2out).Pairwise
      (fun p q => p.1 ≠ q.1) := List.pairwise_map.mp hnd2
  have hlt : (sortLe connKeyLe rg.conn_global_abs_in2out).Pairwise
      (fun p q => strLt p.1 q.1 = true) := by
    refine (hpw.and hne).imp ?_
    intro a b hab
    rcases (strLe_eq_lt_or_eq a.1 b.1).mp hab.1 with h2 | h2
    · exact h2
    · exact absurd h2 hab.2
  have hfm : ((sortLe connKeyLe rg.conn_global_abs_in2out).filterMap
      (fun p => p.2.map (fun o => (p.1, o)))).Pairwise
      (fun x y : String × String => strLt x.1 y.1 = true) := by
    refine List.pairwise_filterMap.mpr (hlt.imp ?_)
    intro a b hab x hx y hy
    cases ha : a.2 with
    | none => rw [ha] at hx; cases hx
    | some oa =>
        cases hb : b.2 with
        | none => rw [hb] at hy; cases hy
        | some ob =>
            rw [ha] at hx
            rw [hb] at hy
            simp only [Option.map_some', Option.mem_def, Option.some.injEq] at hx hy
            rw [← hx, ← hy]
            exact hab
  rw [← hmap] at hfm
  have hconn : d.connections_list.Pairwise
      (fun a b => strLt a.tgt b.tgt = true) := List.pairwise_map.mp hfm
  exact (hconn.imp (fun h2 => Or.inl h2)).chain'

theorem conn_list_sorted_witness :
    List.Chain' (fun a b => strLt a.tgt b.tgt = true ∨
      (a.tgt = b.tgt ∧ strLe a.src b.src = true)) (buildConns rgCyc) := by
  have h := conn_list_sorted rgCyc none none none none _ _ (by decide) rfl
  exact h

theorem sccScan_err_of_match (ss ts stt : String) (ords : List (String × Nat))
    (G : List (String × String)) :
    ∀ (l : List (List String)) (count : Nat) (edges : List (Nat × Nat))
      (spl : List String), 1 ≤ count →
      (∃ li ∈ l, ss ∈ li ∧ ts ∈ li) →
      exceptIsOk (sccScan ss ts stt ords G l count edges spl) = false := by
  intro l
  induction l with
  | nil =>
      intro count edges spl _ hex
      obtain ⟨li, hli, _⟩ := hex
      cases hli
  | cons li rest ih =>
      intro count edges spl hc hex
      by_cases hm : ss ∈ li ∧ ts ∈ li
      · have : count + 1 > 1 := by omega
        simp [sccScan, hm, this, exceptIsOk]
      · obtain ⟨li2, hli2, hm2⟩ := hex
        have hli2r : li2 ∈ rest := by
          cases List.mem_cons.mp hli2 with
          | inl heq => exact absurd (heq ▸ hm2) hm
          | inr hr => exact hr
        simp only [sccScan, if_neg hm]
        exact ih count edges spl hc ⟨li2, hli2r, hm2⟩

theorem sccScan_err_of_two (ss ts stt : String) (ords : List (String × Nat))
    (G : List (String × String)) :
    ∀ (l : List (List String)) (count : Nat) (edges : List (Nat × Nat))
      (spl : List String),
      2 ≤ (l.filter (fun li => decide (ss ∈ li) && decide (ts ∈ li))).length →
      exceptIsOk (sccScan ss ts stt ords G l count edges spl) = false := by
  intro l
  induction l with
  | nil => intro count edges spl h2; simp at h2
  | cons li rest ih =>
      intro count edges spl h2
      by_cases hm : ss ∈ li ∧ ts ∈ li
      · by_cases hc : count + 1 > 1
        · simp [sccScan, hm, hc, exceptIsOk]
        · have hrest : 1 ≤ (rest.filter
              (fun li => decide (ss ∈ li) && decide (ts ∈ li))).length := by
            have hq : (decide (ss ∈ li) && decide (ts ∈ li)) = true := by
              simp [hm.1, hm.2]
            rw [List.filter_cons, hq, if_pos rfl] at h2
            simp only [List.length_cons] at h2
            omega
          have hex : ∃ li2 ∈ rest, ss ∈ li2 ∧ ts ∈ li2 := by
            have hne : rest.filter
                (fun li => decide (ss ∈ li) && decide (ts ∈ li)) ≠ [] := by
              intro hnil
              rw [hnil] at hrest
              simp at hrest
            obtain ⟨x, hx⟩ := List.exists_mem_of_ne_nil _ hne
            have hx2 := List.mem_filter.mp hx
            refine ⟨x, hx2.1, ?_⟩
            have := hx2.2
            simp only [Bool.and_eq_true, decide_eq_true_eq] at this
            exact this
          simp only [sccScan, if_pos hm, if_neg hc]
          cases ht : List.lookup ts ords with
          | none => simp [exceptIsOk]
          | some exe_tgt =>
              cases hsrc : List.lookup ss ords with
              | none => simp [exceptIsOk]
              | some exe_src =>
                  simp only
                  cases hf : filterNodes ords (min exe_tgt exe_src)
                      (max exe_tgt exe_src) li with
                  | error e => simp [exceptIsOk]
                  | ok ns =>
                      simp only
                      exact sccScan_err_of_match ss ts stt ords G rest
                        (count + 1) _ _ (by omega) hex
      · simp only [sccScan, if_neg hm]
        rw [List.filter_cons] at h2
        have : (decide (ss ∈ li) && decide (ts ∈ li)) = false := by
          rcases Decidable.not_and_iff_or_not.mp hm with hn | hn <;> simp [hn]
        rw [if_neg (by simp [this])] at h2
        exact ih count edges spl h2

theorem connLoop_err_of_scan_err (scc_list : List (List String))
    (ords : List (String × Nat)) (G : List (String × String))
    (in_abs out_abs : String) :
    ∀ (pairs : List (String × Option String)) (spl : List String)
      (acc : List Connection), (in_abs, some out_abs) ∈ pairs →
      (∀ (count : Nat) (edges : List (Nat × Nat)) (spl2 : List String),
        exceptIsOk (sccScan (ownerPath out_abs) (ownerPath in_abs)
          (ownerPath out_abs ++ " " ++ ownerPath in_abs) ords G scc_list
          count edges spl2) = false) →
      exceptIsOk (connLoop scc_list ords G pairs spl acc) = false := by
  intro pairs
  induction pairs with
  | nil => intro spl acc hmem _; cases hmem
  | cons pr rest ih =>
      intro spl acc hmem hscan
      obtain ⟨i, ob⟩ := pr
      cases ob with
      | none =>
          have hmemr : (in_abs, some out_abs) ∈ rest := by
            cases List.mem_cons.mp hmem with
            | inl heq => cases heq
            | inr hr => exact hr
          simp only [connLoop]
          exact ih spl acc hmemr hscan
      | some o =>
          simp only [connLoop]
          cases hs : sccScan (ownerPath o) (ownerPath i)
              (ownerPath o ++ " " ++ ownerPath i) ords G scc_list 0 [] spl with
          | error e => simp [exceptIsOk]
          | ok res =>
              obtain ⟨edges_list, spl2⟩ := res
              simp only
              have hmemr : (in_abs, some out_abs) ∈ rest := by
                cases List.mem_cons.mp hmem with
                | inl heq =>
                    exfalso
                    have h1 : i = in_abs := congrArg Prod.fst heq.symm
                    have h2 : some o = some out_abs := congrArg Prod.snd heq.symm
                    have h2' : o = out_abs := by injection h2
                    rw [h1, h2'] at hs
                    have hbad := hscan 0 [] spl
                    rw [hs] at hbad
                    simp [exceptIsOk] at hbad
                | inr hr => exact hr
              exact ih spl2 (acc ++ [if edges_list.isEmpty then
                { src := o, tgt := i, cycle_arrows := none }
              else
                { src := o, tgt := i,
                  cycle_arrows := some (sortLe pairLe edges_list) }]) hmemr hscan

/-- C4: If the two owning-subsystem pathnames of a connection are both
contained in two (or more) of the SCC sets, the connection loop fails with
an error: no connection list reaches the caller. -/
theorem scc_double_membership_fails (scc_list : List (List String))
    (ords : List (String × Nat)) (G : List (String × String))
    (pairs : List (String × Option String)) (spl : List String)
    (acc : List Connection) (in_abs out_abs : String)
    (hmem : (in_abs, some out_abs) ∈ pairs)
    (h2 : 2 ≤ (scc_list.filter (fun li =>
      decide (ownerPath out_abs ∈ li) && decide (ownerPath in_abs ∈ li))).length) :
    exceptIsOk (connLoop scc_list ords G pairs spl acc) = false := by
  refine connLoop_err_of_scan_err scc_list ords G in_abs out_abs pairs spl acc
    hmem ?_
  intro count edges spl2
  exact sccScan_err_of_two (ownerPath out_abs) (ownerPath in_abs)
    (ownerPath out_abs ++ " " ++ ownerPath in_abs) ords G scc_list count
    edges spl2 h2

theorem scc_double_membership_fails_witness :
    exceptIsOk (connLoop [["s", "t"], ["s", "t", "u"]] [] []
      [("t.x", some "s.y")] [] []) = false :=
  scc_double_membership_fails [["s", "t"], ["s", "t", "u"]] [] []
    [("t.x", some "s.y")] [] [] "t.x" "s.y" (by decide) (by decide)


theorem filterNodes_spec (ords : List (String × Nat)) (lo hi : Nat) :
    ∀ (li ns : List String), filterNodes ords lo hi li = .ok ns →
      ∀ n ∈ ns, n ∈ li ∧
        ∃ o, List.lookup n ords = some o ∧ lo ≤ o ∧ o ≤ hi := by
  intro li
  induction li with
  | nil =>
      intro ns h n hn
      simp only [filterNodes, Except.ok.injEq] at h
      rw [← h] at hn
      cases hn
  | cons x rest ih =>
      intro ns h n hn
      simp only [filterNodes] at h
      cases hx : List.lookup x ords with
      | none => rw [hx] at h; cases h
      | some o =>
          rw [hx] at h
          cases hr : filterNodes ords lo hi rest with
          | error e => rw [hr] at h; cases h
          | ok ns2 =>
              rw [hr] at h
              simp only [Except.ok.injEq] at h
              rw [← h] at hn
              by_cases hw : lo ≤ o ∧ o ≤ hi
              · rw [if_pos hw] at hn
                cases List.mem_cons.mp hn with
                | inl heq =>
                    rw [heq]
                    exact ⟨List.mem_cons_self x rest, o, hx, hw⟩
                | inr hmem =>
                    obtain ⟨hm, ho⟩ := ih ns2 hr n hmem
                    exact ⟨List.mem_cons_of_mem x hm, ho⟩
              · rw [if_neg hw] at hn
                obtain ⟨hm, ho⟩ := ih ns2 hr n hn
                exact ⟨List.mem_cons_of_mem x hm, ho⟩

theorem edgeLoop_spec (stt : String) :
    ∀ (es : List (String × String)) (edges : List (Nat × Nat))
      (spl edges2spl : List String) (edges' : List (Nat × Nat)),
      edgeLoop stt es edges spl = (edges', edges2spl) →
      listExt spl edges2spl ∧
        ∀ pr ∈ edges', pr ∈ edges ∨ ∃ a b, (a, b) ∈ es ∧
          edges2spl[pr.1]? = some a ∧ edges2spl[pr.2]? = some b := by
  intro es
  induction es with
  | nil =>
      intro edges spl spl' edges' h
      simp only [edgeLoop, Prod.mk.injEq] at h
      rw [← h.1, ← h.2]
      exact ⟨listExt_refl spl, fun pr hpr => Or.inl hpr⟩
  | cons e rest ih =>
      intro edges spl spl' edges' h
      obtain ⟨a, b⟩ := e
      simp only [edgeLoop] at h
      by_cases hne : a ++ " " ++ b ≠ stt
      · rw [if_pos hne] at h
        have hmem_a1 : a ∈ registerPath spl a := registerPath_mem spl a
        have hext1 : listExt spl (registerPath spl a) := registerPath_ext spl a
        have hext2 : listExt (registerPath spl a)
            (registerPath (registerPath spl a) b) :=
          registerPath_ext (registerPath spl a) b
        have hmem_a : a ∈ registerPath (registerPath spl a) b :=
          listExt_mem hext2 hmem_a1
        have hmem_b : b ∈ registerPath (registerPath spl a) b :=
          registerPath_mem (registerPath spl a) b
        obtain ⟨hext3, hall⟩ := ih _ _ _ _ h
        refine ⟨listExt_trans (listExt_trans hext1 hext2) hext3, ?_⟩
        intro pr hpr
        cases hall pr hpr with
        | inl hin =>
            cases List.mem_append.mp hin with
            | inl hold => exact Or.inl hold
            | inr hnew =>
                have hpr2 := List.mem_singleton.mp hnew
                refine Or.inr ⟨a, b, List.mem_cons_self _ _, ?_, ?_⟩
                · rw [hpr2]
                  exact listExt_getElem? hext3 (idxOf_getElem? _ a hmem_a)
                · rw [hpr2]
                  exact listExt_getElem? hext3 (idxOf_getElem? _ b hmem_b)
        | inr hex =>
            obtain ⟨a2, b2, hab, h1, h2⟩ := hex
            exact Or.inr ⟨a2, b2, List.mem_cons_of_mem _ hab, h1, h2⟩
      · rw [if_neg hne] at h
        obtain ⟨hext, hall⟩ := ih _ _ _ _ h
        refine ⟨hext, ?_⟩
        intro pr hpr
        cases hall pr hpr with
        | inl hin => exact Or.inl hin
        | inr hex =>
            obtain ⟨a2, b2, hab, h1, h2⟩ := hex
            exact Or.inr ⟨a2, b2, List.mem_cons_of_mem _ hab, h1, h2⟩

theorem sccScan_spec (ss ts stt : String) (ords : List (String × Nat))
    (G : List (String × String)) :
    ∀ (l : List (List String)) (count : Nat) (edges edges' : List (Nat × Nat))
      (spl spl' : List String),
      sccScan ss ts stt ords G l count edges spl = .ok (edges', spl') →
      listExt spl spl' ∧
        ∀ pr ∈ edges', pr ∈ edges ∨
          ∃ li ∈ l, ss ∈ li ∧ ts ∈ li ∧
            ∃ a b, (a, b) ∈ G ∧ a ∈ li ∧ b ∈ li ∧
              spl'[pr.1]? = some a ∧ spl'[pr.2]? = some b ∧
              inWindowB ords ss ts a = true ∧ inWindowB ords ss ts b = true := by
  intro l
  induction l with
  | nil =>
      intro count edges edges' spl spl' h
      simp only [sccScan, Except.ok.injEq, Prod.mk.injEq] at h
      rw [← h.1, ← h.2]
      exact ⟨listExt_refl spl, fun pr hpr => Or.inl hpr⟩
  | cons li rest ih =>
      intro count edges edges' spl spl' h
      by_cases hm : ss ∈ li ∧ ts ∈ li
      · simp only [sccScan, if_pos hm] at h
        by_cases hc : count + 1 > 1
        · rw [if_pos hc] at h
          cases h
        · rw [if_neg hc] at h
          cases hlt : List.lookup ts ords with
          | none => rw [hlt] at h; cases h
          | some exe_tgt =>
              rw [hlt] at h
              cases hls : List.lookup ss ords with
              | none => rw [hls] at h; cases h
              | some exe_src =>
                  rw [hls] at h
                  simp only at h
                  cases hf : filterNodes ords (min exe_tgt exe_src)
                      (max exe_tgt exe_src) li with
                  | error e => rw [hf] at h; cases h
                  | ok ns =>
                      rw [hf] at h
                      simp only at h
                      obtain ⟨hext2, hrest⟩ := ih (count + 1) _ edges' _ spl' h
                      cases hel : edgeLoop stt
                          (G.filter (fun e =>
                            decide (e.1 ∈ ns) && decide (e.2 ∈ ns)))
                          edges spl with
                      | mk edges2 spl2 =>
                          rw [hel] at hext2 hrest
                          obtain ⟨hext1, hloop⟩ := edgeLoop_spec stt _ _ _ _ _ hel
                          refine ⟨listExt_trans hext1 hext2, ?_⟩
                          intro pr hpr
                          cases hrest pr hpr with
                          | inl hin =>
                              cases hloop pr hin with
                              | inl hold => exact Or.inl hold
                              | inr hex =>
                                  obtain ⟨a, b, hab, h1, h2⟩ := hex
                                  have habG := List.mem_filter.mp hab
                                  have habm : a ∈ ns ∧ b ∈ ns := by
                                    have := habG.2
                                    simp only [Bool.and_eq_true,
                                      decide_eq_true_eq] at this
                                    exact this
                                  obtain ⟨hali, oa, hoa, hoa1, hoa2⟩ :=
                                    filterNodes_spec ords _ _ li ns hf a habm.1
                                  obtain ⟨hbli, ob2, hob, hob1, hob2⟩ :=
                                    filterNodes_spec ords _ _ li ns hf b habm.2
                                  refine Or.inr ⟨li, List.mem_cons_self _ _,
                                    hm.1, hm.2, a, b, habG.1, hali, hbli,
                                    listExt_getElem? hext2 h1,
                                    listExt_getElem? hext2 h2, ?_, ?_⟩
                                  · simp only [inWindowB, hls, hlt, hoa]
                                    simp only [decide_eq_true_eq]
                                    constructor
                                    · calc min exe_src exe_tgt
                                          = min exe_tgt exe_src := Nat.min_comm _ _
                                        _ ≤ oa := hoa1
                                    · calc oa ≤ max exe_tgt exe_src := hoa2
                                        _ = max exe_src exe_tgt := Nat.max_comm _ _
                                  · simp only [inWindowB, hls, hlt, hob]
                                    simp only [decide_eq_true_eq]
                                    constructor
                                    · calc min exe_src exe_tgt
                                          = min exe_tgt exe_src := Nat.min_comm _ _
                                        _ ≤ ob2 := hob1
                                    · calc ob2 ≤ max exe_tgt exe_src := hob2
                                        _ = max exe_src exe_tgt := Nat.max_comm _ _
                          | inr hex =>
                              obtain ⟨li2, hli2, hrest2⟩ := hex
                              exact Or.inr ⟨li2, List.mem_cons_of_mem _ hli2,
                                hrest2⟩
      · simp only [sccScan, if_neg hm] at h
        obtain ⟨hext, hall⟩ := ih count edges edges' spl spl' h
        refine ⟨hext, ?_⟩
        intro pr hpr
        cases hall pr hpr with
        | inl hin => exact Or.inl hin
        | inr hex =>
            obtain ⟨li2, hli2, hrest2⟩ := hex
            exact Or.inr ⟨li2, List.mem_cons_of_mem _ hli2, hrest2⟩

theorem connLoop_ext (scc_list : List (List String))
    (ords : List (String × Nat)) (G : List (String × String)) :
    ∀ (pairs : List (String × Option String)) (spl : List String)
      (acc conns : List Connection) (spl' : List String),
      connLoop scc_list ords G pairs spl acc = .ok (conns, spl') →
      listExt spl spl' := by
  intro pairs
  induction pairs with
  | nil =>
      intro spl acc conns spl' h
      simp only [connLoop, Except.ok.injEq, Prod.mk.injEq] at h
      rw [← h.2]
      exact listExt_refl spl
  | cons pr rest ih =>
      intro spl acc conns spl' h
      obtain ⟨i, ob⟩ := pr
      cases ob with
      | none =>
          simp only [connLoop] at h
          exact ih spl acc conns spl' h
      | some o =>
          simp only [connLoop] at h
          cases hs : sccScan (ownerPath o) (ownerPath i)
              (ownerPath o ++ " " ++ ownerPath i) ords G scc_list 0 [] spl with
          | error e => rw [hs] at h; cases h
          | ok res =>
              obtain ⟨edges_list, spl2⟩ := res
              rw [hs] at h
              simp only at h
              have hext1 := (sccScan_spec (ownerPath o) (ownerPath i)
                (ownerPath o ++ " " ++ ownerPath i) ords G scc_list 0 []
                edges_list spl spl2 hs).1
              exact listExt_trans hext1 (ih spl2 _ conns spl' h)

theorem connLoop_c5_inv (scc_list : List (List String))
    (ords : List (String × Nat)) (G : List (String × String)) :
    ∀ (pairs : List (String × Option String)) (spl : List String)
      (acc conns : List Connection) (spl' : List String),
      connLoop scc_list ords G pairs spl acc = .ok (conns, spl') →
      (∀ c ∈ acc, ∀ l, c.cycle_arrows = some l → ∀ pr ∈ l,
        ∃ li ∈ scc_list, ownerPath c.src ∈ li ∧ ownerPath c.tgt ∈ li ∧
          ∃ a b, (a, b) ∈ G ∧ a ∈ li ∧ b ∈ li ∧
            spl'[pr.1]? = some a ∧ spl'[pr.2]? = some b ∧
            inWindowB ords (ownerPath c.src) (ownerPath c.tgt) a = true ∧
            inWindowB ords (ownerPath c.src) (ownerPath c.tgt) b = true) →
      ∀ c ∈ conns, ∀ l, c.cycle_arrows = some l → ∀ pr ∈ l,
        ∃ li ∈ scc_list, ownerPath c.src ∈ li ∧ ownerPath c.tgt ∈ li ∧
          ∃ a b, (a, b) ∈ G ∧ a ∈ li ∧ b ∈ li ∧
            spl'[pr.1]? = some a ∧ spl'[pr.2]? = some b ∧
            inWindowB ords (ownerPath c.src) (ownerPath c.tgt) a = true ∧
            inWindowB ords (ownerPath c.src) (ownerPath c.tgt) b = true := by
  intro pairs
  induction pairs with
  | nil =>
      intro spl acc conns spl' h hacc
      simp only [connLoop, Except.ok.injEq, Prod.mk.injEq] at h
      rw [← h.1]
      exact hacc
  | cons pr rest ih =>
      intro spl acc conns spl' h hacc
      obtain ⟨i, ob⟩ := pr
      cases ob with
      | none =>
          simp only [connLoop] at h
          exact ih spl acc conns spl' h hacc
      | some o =>
          simp only [connLoop] at h
          cases hs : sccScan (ownerPath o) (ownerPath i)
              (ownerPath o ++ " " ++ ownerPath i) ords G scc_list 0 [] spl with
          | error e => rw [hs] at h; cases h
          | ok res =>
              obtain ⟨edges_list, spl2⟩ := res
              rw [hs] at h
              simp only at h
              refine ih spl2 _ conns spl' h ?_
              intro c hc
              cases List.mem_append.mp hc with
              | inl hl => exact hacc c hl
              | inr hr =>
                  have hceq := List.mem_singleton.mp hr
                  by_cases he : edges_list.isEmpty
                  · rw [hceq]
                    simp only [he, if_pos rfl]
                    intro l hl
                    cases hl
                  · rw [hceq]
                    simp only [he, if_neg Bool.false_ne_true]
                    intro l hl pr hpr
                    simp only [Option.some.injEq] at hl
                    have hprm : pr ∈ edges_list := by
                      have hperm := sortLe_perm pairLe edges_list
                      rw [← hl] at hpr
                      exact hperm.mem_iff.mp hpr
                    have hspec := sccScan_spec (ownerPath o) (ownerPath i)
                      (ownerPath o ++ " " ++ ownerPath i) ords G scc_list 0 []
                      edges_list spl spl2 hs
                    have hext2 := connLoop_ext scc_list ords G rest spl2 _
                      conns spl' h
                    cases hspec.2 pr hprm with
                    | inl hin => cases hin
                    | inr hex =>
                        obtain ⟨li, hli, hss, hts, a, b, hab, hali, hbli,
                          h1, h2, hwa, hwb⟩ := hex
                        exact ⟨li, hli, hss, hts, a, b, hab, hali, hbli,
                          listExt_getElem? hext2 h1,
                          listExt_getElem? hext2 h2, hwa, hwb⟩

/-- C5: Every cycle-arrow emitted with a connection joins two pathnames
that belong to an SCC set containing both owning
subsystems, are joined by a component-graph edge, and whose execution-order
values lie within the closed window
`[min(src_order, tgt_order), max(src_order, tgt_order)]` spanned by the
own two endpoint owners of the connection. -/
theorem cycle_arrow_window (rg : RootGroup) (dn dt : Option String)
    (dop dos : Option (List (String × String))) (d : DataDict)
    (rg2 : RootGroup) (h : buildFull rg dn dt dop dos = .ok (d, rg2))
    (t : TreeDict) (orders : List (String × Nat)) (k : Nat)
    (htree : _get_tree_dict rg.sys [] 0 false = .ok (t, orders, k)) :
    ∀ c ∈ d.connections_list, ∀ l, c.cycle_arrows = some l → ∀ pr ∈ l,
      ∃ li ∈ sccListOfGraph rg.sys_graph_edges,
        ownerPath c.src ∈ li ∧ ownerPath c.tgt ∈ li ∧
        ∃ a b, (a, b) ∈ rg.sys_graph_edges ∧ a ∈ li ∧ b ∈ li ∧
          d.sys_pathnames_list[pr.1]? = some a ∧
          d.sys_pathnames_list[pr.2]? = some b ∧
          inWindowB orders (ownerPath c.src) (ownerPath c.tgt) a = true ∧
          inWindowB orders (ownerPath c.src) (ownerPath c.tgt) b = true := by
  obtain ⟨t2, orders2, k2, ht2, hc⟩ := buildFull_conns rg dn dt dop dos d rg2 h
  rw [htree] at ht2
  have horders : orders2 = orders := by
    injection ht2 with ht3
    injection ht3 with _ ht4
    injection ht4 with h5 _
    exact h5.symm
  rw [horders] at hc
  exact connLoop_c5_inv (sccListOfGraph rg.sys_graph_edges) orders
    rg.sys_graph_edges (sortLe connKeyLe rg.conn_global_abs_in2out) [] []
    d.connections_list d.sys_pathnames_list hc (by intro c hc2; cases hc2)

theorem cycle_arrow_window_witness :
    ∃ li ∈ sccListOfGraph rgCyc.sys_graph_edges,
      ownerPath "b.v" ∈ li ∧ ownerPath "a.u" ∈ li ∧
      ∃ a b, (a, b) ∈ rgCyc.sys_graph_edges ∧ a ∈ li ∧ b ∈ li ∧
        (["a", "b"] : List String)[(0 : Nat)]? = some a ∧
        (["a", "b"] : List String)[(1 : Nat)]? = some b ∧
        inWindowB [("a", 0), ("b", 1)] (ownerPath "b.v") (ownerPath "a.u") a =
          true ∧
        inWindowB [("a", 0), ("b", 1)] (ownerPath "b.v") (ownerPath "a.u") b =
          true := by
  have h := cycle_arrow_window rgCyc none none none none _ _ rfl _ _ _ rfl
  exact h { src := "b.v", tgt := "a.u", cycle_arrows := some [(0, 1)] }
    (by decide) [(0, 1)] rfl (0, 1) (by decide)


theorem edgeLoop_len (stt : String) :
    ∀ (es : List (String × String)) (edges : List (Nat × Nat))
      (spl : List String) (edges' : List (Nat × Nat)) (spl' : List String),
      edgeLoop stt es edges spl = (edges', spl') →
      edges'.length = edges.length +
        (es.filter (fun e => decide (¬ e.1 ++ " " ++ e.2 = stt))).length := by
  intro es
  induction es with
  | nil =>
      intro edges spl edges' spl' h
      simp only [edgeLoop, Prod.mk.injEq] at h
      simp [← h.1]
  | cons e rest ih =>
      intro edges spl edges' spl' h
      obtain ⟨a, b⟩ := e
      simp only [edgeLoop] at h
      by_cases hne : a ++ " " ++ b ≠ stt
      · rw [if_pos hne] at h
        have := ih _ _ _ _ h
        rw [List.filter_cons, if_pos (by simpa using hne)]
        simp only [List.length_append, List.length_cons, List.length_nil] at this ⊢
        omega
      · rw [if_neg hne] at h
        have := ih _ _ _ _ h
        rw [List.filter_cons, if_neg (by simpa using hne)]
        exact this

/-- The number of cycle-arrows registered by the SCC scan for a connection
does not depend on the incoming pathname list or edge accumulator: a scan
restarted from a fresh indexer succeeds exactly when the original did and
registers the same number of edges. -/
theorem sccScan_indep (ss ts stt : String) (ords : List (String × Nat))
    (G : List (String × String)) :
    ∀ (l : List (List String)) (count : Nat) (e1 : List (Nat × Nat))
      (s1 : List String) (o1 : List (Nat × Nat)) (s1' : List String),
      sccScan ss ts stt ords G l count e1 s1 = .ok (o1, s1') →
      ∀ (e2 : List (Nat × Nat)) (s2 : List String),
        ∃ o2 s2', sccScan ss ts stt ords G l count e2 s2 = .ok (o2, s2') ∧
          o1.length + e2.length = o2.length + e1.length := by
  intro l
  induction l with
  | nil =>
      intro count e1 s1 o1 s1' h e2 s2
      simp only [sccScan, Except.ok.injEq, Prod.mk.injEq] at h
      exact ⟨e2, s2, rfl, by rw [← h.1]; omega⟩
  | cons li rest ih =>
      intro count e1 s1 o1 s1' h e2 s2
      by_cases hm : ss ∈ li ∧ ts ∈ li
      · simp only [sccScan, if_pos hm] at h
        by_cases hc : count + 1 > 1
        · rw [if_pos hc] at h
          cases h
        · rw [if_neg hc] at h
          cases hlt : List.lookup ts ords with
          | none => rw [hlt] at h; cases h
          | some exe_tgt =>
              rw [hlt] at h
              cases hls : List.lookup ss ords with
              | none => rw [hls] at h; cases h
              | some exe_src =>
                  rw [hls] at h
                  simp only at h
                  cases hf : filterNodes ords (min exe_tgt exe_src)
                      (max exe_tgt exe_src) li with
                  | error e => rw [hf] at h; cases h
                  | ok ns =>
                      rw [hf] at h
                      simp only at h
                      cases hel1 : edgeLoop stt
                          (G.filter (fun e =>
                            decide (e.1 ∈ ns) && decide (e.2 ∈ ns))) e1 s1 with
                      | mk e1' s1'' =>
                          rw [hel1] at h
                          cases hel2 : edgeLoop stt
                              (G.filter (fun e =>
                                decide (e.1 ∈ ns) && decide (e.2 ∈ ns)))
                              e2 s2 with
                          | mk e2' s2'' =>
                              obtain ⟨o2, s2', heq, hlen⟩ :=
                                ih (count + 1) e1' s1'' o1 s1' h e2' s2''
                              have hl1 := edgeLoop_len stt _ _ _ _ _ hel1
                              have hl2 := edgeLoop_len stt _ _ _ _ _ hel2
                              refine ⟨o2, s2', ?_, by omega⟩
                              simp only [sccScan, if_pos hm, if_neg hc, hlt,
                                hls, hf, hel2]
                              exact heq
      · simp only [sccScan, if_neg hm] at h ⊢
        exact ih count e1 s1 o1 s1' h e2 s2

theorem connLoop_arrows_iff_inv (scc_list : List (List String))
    (ords : List (String × Nat)) (G : List (String × String)) :
    ∀ (pairs : List (String × Option String)) (spl : List String)
      (acc conns : List Connection) (spl' : List String),
      connLoop scc_list ords G pairs spl acc = .ok (conns, spl') →
      (∀ c ∈ acc, ∀ (edges0 : List (Nat × Nat)) (spl0 : List String),
        sccScan (ownerPath c.src) (ownerPath c.tgt)
          (ownerPath c.src ++ " " ++ ownerPath c.tgt) ords G scc_list 0 [] [] =
          .ok (edges0, spl0) →
        (edges0.isEmpty = true → c.cycle_arrows = none) ∧
        (edges0.isEmpty = false → ∃ l, c.cycle_arrows = some l ∧ l ≠ [] ∧
          List.Chain' (fun p q => pairLe p q = true) l)) →
      ∀ c ∈ conns, ∀ (edges0 : List (Nat × Nat)) (spl0 : List String),
        sccScan (ownerPath c.src) (ownerPath c.tgt)
          (ownerPath c.src ++ " " ++ ownerPath c.tgt) ords G scc_list 0 [] [] =
          .ok (edges0, spl0) →
        (edges0.isEmpty = true → c.cycle_arrows = none) ∧
        (edges0.isEmpty = false → ∃ l, c.cycle_arrows = some l ∧ l ≠ [] ∧
          List.Chain' (fun p q => pairLe p q = true) l) := by
  intro pairs
  induction pairs with
  | nil =>
      intro spl acc conns spl' h hacc
      simp only [connLoop, Except.ok.injEq, Prod.mk.injEq] at h
      rw [← h.1]
      exact hacc
  | cons pr rest ih =>
      intro spl acc conns spl' h hacc
      obtain ⟨i, ob⟩ := pr
      cases ob with
      | none =>
          simp only [connLoop] at h
          exact ih spl acc conns spl' h hacc
      | some o =>
          simp only [connLoop] at h
          cases hs : sccScan (ownerPath o) (ownerPath i)
              (ownerPath o ++ " " ++ ownerPath i) ords G scc_list 0 [] spl with
          | error e => rw [hs] at h; cases h
          | ok res =>
              obtain ⟨edges_list, spl2⟩ := res
              rw [hs] at h
              simp only at h
              refine ih spl2 _ conns spl' h ?_
              intro c hc
              cases List.mem_append.mp hc with
              | inl hl => exact hacc c hl
              | inr hr =>
                  have hceq := List.mem_singleton.mp hr
                  obtain ⟨oref, sref, href0, hlenref⟩ :=
                    sccScan_indep (ownerPath o) (ownerPath i)
                      (ownerPath o ++ " " ++ ownerPath i) ords G scc_list 0 []
                      spl edges_list spl2 hs [] []
                  cases he : edges_list.isEmpty with
                  | true =>
                      rw [hceq, if_pos he]
                      intro edges0 spl0 href
                      have hboth : (Except.ok (oref, sref) :
                          Except String (List (Nat × Nat) × List String)) =
                          .ok (edges0, spl0) := href0.symm.trans href
                      have hpair : (oref, sref) = (edges0, spl0) := by
                        injection hboth
                      have hoe : oref = edges0 := congrArg Prod.fst hpair
                      have hel0 : edges_list.length = 0 := by
                        cases edges_list with
                        | nil => rfl
                        | cons x xs => simp [List.isEmpty] at he
                      have hleneq : edges_list.length = edges0.length := by
                        rw [← hoe]
                        simpa using hlenref
                      have h0 : edges0.isEmpty = true := by
                        cases edges0 with
                        | nil => rfl
                        | cons x xs =>
                            rw [hel0] at hleneq
                            simp at hleneq
                      refine ⟨fun _ => rfl, fun hfalse => ?_⟩
                      rw [h0] at hfalse
                      cases hfalse
                  | false =>
                      rw [hceq, if_neg (by simp [he])]
                      intro edges0 spl0 href
                      have hboth : (Except.ok (oref, sref) :
                          Except String (List (Nat × Nat) × List String)) =
                          .ok (edges0, spl0) := href0.symm.trans href
                      have hpair : (oref, sref) = (edges0, spl0) := by
                        injection hboth
                      have hoe : oref = edges0 := congrArg Prod.fst hpair
                      have helpos : 0 < edges_list.length := by
                        cases edges_list with
                        | nil => simp [List.isEmpty] at he
                        | cons x xs => simp
                      have hleneq : edges_list.length = edges0.length := by
                        rw [← hoe]
                        simpa using hlenref
                      have h0 : edges0.isEmpty = false := by
                        cases edges0 with
                        | nil =>
                            rw [List.length_nil] at hleneq
                            omega
                        | cons x xs => rfl
                      refine ⟨fun htrue => ?_, fun _ => ?_⟩
                      · rw [h0] at htrue
                        cases htrue
                      · refine ⟨sortLe pairLe edges_list, rfl, ?_, ?_⟩
                        · intro hbad
                          have hperm := sortLe_perm pairLe edges_list
                          rw [hbad] at hperm
                          have hnil : edges_list = [] := hperm.symm.eq_nil
                          rw [hnil] at helpos
                          simp at helpos
                        · exact sortLe_chain' pairLe pairLe_total edges_list

/-- C6: Each emitted connection carries the `cycle_arrows` field exactly
when its own SCC scan registers at least one cycle-arrow: with none
registered the field is omitted entirely, and with at least one it is
present, non-empty, and sorted ascending by `[src, tgt]` pairs.  The
registered count is independent of the pathname-indexer state
(`sccScan_indep`), so the scan of the connection is restated from a fresh
indexer. -/
theorem cycle_arrows_presence (rg : RootGroup) (dn dt : Option String)
    (dop dos : Option (List (String × String))) (d : DataDict)
    (rg2 : RootGroup) (h : buildFull rg dn dt dop dos = .ok (d, rg2))
    (t : TreeDict) (orders : List (String × Nat)) (k : Nat)
    (htree : _get_tree_dict rg.sys [] 0 false = .ok (t, orders, k)) :
    ∀ c ∈ d.connections_list,
      ∀ (edges0 : List (Nat × Nat)) (spl0 : List String),
        sccScan (ownerPath c.src) (ownerPath c.tgt)
          (ownerPath c.src ++ " " ++ ownerPath c.tgt) orders
          rg.sys_graph_edges (sccListOfGraph rg.sys_graph_edges) 0 [] [] =
          .ok (edges0, spl0) →
        (edges0.isEmpty = true → c.cycle_arrows = none) ∧
        (edges0.isEmpty = false → ∃ l, c.cycle_arrows = some l ∧ l ≠ [] ∧
          List.Chain' (fun p q => pairLe p q = true) l) := by
  obtain ⟨t2, orders2, k2, ht2, hc⟩ := buildFull_conns rg dn dt dop dos d rg2 h
  rw [htree] at ht2
  have horders : orders2 = orders := by
    injection ht2 with ht3
    injection ht3 with _ ht4
    injection ht4 with h5 _
    exact h5.symm
  rw [horders] at hc
  exact connLoop_arrows_iff_inv (sccListOfGraph rg.sys_graph_edges) orders
    rg.sys_graph_edges (sortLe connKeyLe rg.conn_global_abs_in2out) [] []
    d.connections_list d.sys_pathnames_list hc (by intro c hc2; cases hc2)

theorem cycle_arrows_presence_witness :
    (([((0 : Nat), (1 : Nat))] : List (Nat × Nat)).isEmpty = true →
        (some [((0 : Nat), (1 : Nat))] : Option (List (Nat × Nat))) = none) ∧
      (([((0 : Nat), (1 : Nat))] : List (Nat × Nat)).isEmpty = false →
        ∃ l, (some [((0 : Nat), (1 : Nat))] : Option (List (Nat × Nat))) =
            some l ∧ l ≠ [] ∧
          List.Chain' (fun p q => pairLe p q = true) l) := by
  have h := cycle_arrows_presence rgCyc none none none none _ _ rfl _ _ _ rfl
  exact h { src := "b.v", tgt := "a.u", cycle_arrows := some [(0, 1)] }
    (by decide) [(0, 1)] ["a", "b"] rfl
